import Mathlib

/-!
Verification of the DAG traversal and mutation-guard logic of
django-postgresql-dag.  The recursive CTE queries of `query_builders.py`
and the facade methods of `models.py` are shallowly embedded: the edge
store is a finite list of edge rows, node identities are naturals, and
each recursive CTE becomes a level-indexed Lean function whose levels
mirror the anchor and recursive steps of the SQL.
-/

namespace DagVerify

/-- An edge row of the persisted edge relation: surrogate id `eid`,
ordered pair `(parent, child)`, and a numeric `weight` attribute. -/
structure EdgeT where
  eid : Nat
  parent : Nat
  child : Nat
  weight : Int
deriving DecidableEq, Repr

/-- A graph state: the node table (list of primary keys) and the edge table. -/
structure DagState where
  nodes : List Nat
  edges : List EdgeT
deriving DecidableEq, Repr

/-- Default for the `DJANGO_POSTGRESQL_DAG_MAX_DEPTH` setting
(`query_builders.py`, `BaseQuery.__init__`). -/
def defaultMaxDepth : Nat := 20

/-- There is an edge row with the given (parent, child) pair. -/
def isEdge (st : DagState) (p c : Nat) : Prop :=
  ∃ e ∈ st.edges, e.parent = p ∧ e.child = c

instance (st : DagState) (p c : Nat) : Decidable (isEdge st p c) :=
  List.decidableBEx _ st.edges

/-- Parents of a node: `SELECT parent_id FROM edges WHERE child_id = n`. -/
def parentsOf (st : DagState) (n : Nat) : List Nat :=
  (st.edges.filter (fun e => e.child == n)).map (·.parent)

/-- Children of a node: `SELECT child_id FROM edges WHERE parent_id = n`. -/
def childrenOf (st : DagState) (n : Nat) : List Nat :=
  (st.edges.filter (fun e => e.parent == n)).map (·.child)

/-- Keep the first occurrence of each element (Django `Case`-ordered
`filter(pk__in=...)` keeps one row per pk, positioned by first match). -/
def dedupFirst : List Nat → List Nat
  | [] => []
  | a :: l => a :: ((dedupFirst l).filter (fun x => x ≠ a))

/-- Ascending insertion for `sortNat`. -/
def insertAsc (a : Nat) : List Nat → List Nat
  | [] => [a]
  | b :: l => if a ≤ b then a :: b :: l else b :: insertAsc a l

/-- Ascending sort on pk lists (`ORDER BY pk ASC` within one depth group;
Python `sorted`). -/
def sortNat : List Nat → List Nat
  | [] => []
  | a :: l => insertAsc a (sortNat l)

/-- Django `_ordered_filter(objects, "pk", pks)`: rows of the node table
whose pk is in `pks`, ordered by the first position of the pk in `pks`. -/
def querysetPks (st : DagState) (pks : List Nat) : List Nat :=
  (dedupFirst pks).filter (fun n => decide (n ∈ st.nodes))

/-- One breadth level of a recursive CTE: `init` is the anchor row set and
`step` the recursive member; every level is deduplicated (`UNION`). -/
def genLevel (step : Nat → List Nat) (start : List Nat) : Nat → List Nat
  | 0 => start
  | d + 1 => ((genLevel step start d).flatMap step).dedup

/-- Nodes reached by climbing parentward from `pk` in exactly `d` steps
(the depth-`d` rows of the ancestor CTEs). -/
def upLevel (st : DagState) (pk : Nat) : Nat → List Nat :=
  genLevel (parentsOf st) [pk]

/-- Nodes reached by descending childward from `pk` in exactly `d` steps
(the depth-`d` rows of the descendant CTEs). -/
def downLevel (st : DagState) (pk : Nat) : Nat → List Nat :=
  genLevel (childrenOf st) [pk]

/-- Greatest depth `d` with `1 ≤ d ≤ md` at which `n` occurs in the
ancestor traversal of `pk` (`GROUP BY pk ... MAX(depth)`), as a filter:
`n` belongs to the depth-`d` group iff it occurs at depth `d` and at no
deeper admissible depth. -/
def inMaxGroup (level : Nat → List Nat) (md d n : Nat) : Prop :=
  n ∈ level d ∧ ∀ d' < md + 1, d < d' → n ∉ level d'

instance (level : Nat → List Nat) (md d n : Nat) :
    Decidable (inMaxGroup level md d n) := by
  unfold inMaxGroup
  exact instDecidableAnd

/-- Result pk order of `AncestorQuery.raw_queryset` for instance `pk`:
depths 1..md, `ORDER BY MAX(depth) DESC, pk ASC`. -/
def ancestorPks (st : DagState) (pk md : Nat) : List Nat :=
  ((List.range md).map (fun i => md - i)).flatMap
    (fun d => sortNat (((upLevel st pk d).dedup).filter
      (fun n => decide (0 < d ∧ inMaxGroup (upLevel st pk) md d n))))

/-- Result pk order of `DescendantQuery.raw_queryset` for instance `pk`:
depths 1..md, `ORDER BY MAX(depth) ASC, pk ASC`. -/
def descendantPks (st : DagState) (pk md : Nat) : List Nat :=
  ((List.range md).map (· + 1)).flatMap
    (fun d => sortNat (((downLevel st pk d).dedup).filter
      (fun n => decide (inMaxGroup (downLevel st pk) md d n))))

/-- Pk sequence of `Node.self_and_ancestors`: `[self.pk] + ancestors[::-1]`. -/
def selfAndAncestorsPks (st : DagState) (pk md : Nat) : List Nat :=
  pk :: (ancestorPks st pk md).reverse

/-- Pk sequence of `Node.self_and_descendants`: `[self.pk] + descendants`. -/
def selfAndDescendantsPks (st : DagState) (pk md : Nat) : List Nat :=
  pk :: descendantPks st pk md

/-- `Node.circular_checker(parent, child)` raises iff
`child in parent.self_and_ancestors()` (models.py). -/
def circularCheckerRaises (st : DagState) (parent child : Nat) : Prop :=
  child ∈ querysetPks st (selfAndAncestorsPks st parent defaultMaxDepth)

instance (st : DagState) (p c : Nat) : Decidable (circularCheckerRaises st p c) := by
  unfold circularCheckerRaises
  infer_instance

/-- `Node.duplicate_edge_checker(parent, child)` raises iff
`child in parent.self_and_descendants()` (models.py): a reachability
test, not an exact-pair test. -/
def duplicateCheckerRaises (st : DagState) (parent child : Nat) : Prop :=
  child ∈ querysetPks st (selfAndDescendantsPks st parent defaultMaxDepth)

instance (st : DagState) (p c : Nat) : Decidable (duplicateCheckerRaises st p c) := by
  unfold duplicateCheckerRaises
  infer_instance

/-- Validation errors raised by `Edge.save`. -/
inductive SaveErr where
  | cyclic
  | duplicate
deriving DecidableEq, Repr

/-- `Edge.save(...)`: run `circular_checker` unless disabled, then
`duplicate_edge_checker` unless duplicates are allowed, then insert.
Returns the resulting edge store and the raised error, if any; a raised
error leaves the store unchanged. -/
def edgeSave (st : DagState) (e : EdgeT) (disableCircularCheck allowDuplicateEdges : Bool) :
    DagState × Option SaveErr :=
  if ¬disableCircularCheck = true ∧ circularCheckerRaises st e.parent e.child then
    (st, some .cyclic)
  else if ¬allowDuplicateEdges = true ∧ duplicateCheckerRaises st e.parent e.child then
    (st, some .duplicate)
  else
    ({ st with edges := st.edges ++ [e] }, none)

/-- A row of the path-search CTEs: columns `(a, b, depth, path)`.  For the
downward query `a` is `parent_id` and `b` is `child_id`; for the upward
query `a` is `child_id` and `b` is `parent_id`. -/
structure PathRow where
  a : Nat
  b : Nat
  depth : Nat
  path : List Nat
deriving DecidableEq, Repr

/-- Depth-(k+1) rows of `DownwardPathQuery` / `AllDownwardPathsQuery`:
anchor on edges leaving `start`; the recursive member extends along an
edge whose parent equals the previous child and is not yet on the path
(self-avoiding walk). -/
def downRowsLevel (st : DagState) (start : Nat) : Nat → List PathRow
  | 0 =>
    (st.edges.filter (fun e => e.parent == start)).map
      (fun e => ⟨e.parent, e.child, 1, [e.parent]⟩)
  | k + 1 =>
    (downRowsLevel st start k).flatMap (fun r =>
      (st.edges.filter (fun e => e.parent == r.b && !(r.path.contains e.parent))).map
        (fun e => ⟨e.parent, e.child, k + 2, r.path ++ [e.parent]⟩))

/-- Depth-(k+1) rows of `UpwardPathQuery` / `AllUpwardPathsQuery`:
anchor on edges entering `start`; the recursive member extends along an
edge whose child equals the previous parent and is not yet on the path. -/
def upRowsLevel (st : DagState) (start : Nat) : Nat → List PathRow
  | 0 =>
    (st.edges.filter (fun e => e.child == start)).map
      (fun e => ⟨e.child, e.parent, 1, [e.child]⟩)
  | k + 1 =>
    (upRowsLevel st start k).flatMap (fun r =>
      (st.edges.filter (fun e => e.child == r.b && !(r.path.contains e.child))).map
        (fun e => ⟨e.child, e.parent, k + 2, r.path ++ [e.child]⟩))

/-- All rows of a path CTE up to the `max_depth` bound. -/
def pathRows (levels : Nat → List PathRow) (md : Nat) : List PathRow :=
  (List.range md).flatMap levels

/-- PostgreSQL array comparison, elementwise with shorter-is-smaller
(`ORDER BY depth, path`). -/
def arrayLt : List Nat → List Nat → Bool
  | [], [] => false
  | [], _ :: _ => true
  | _ :: _, [] => false
  | x :: xs, y :: ys => if x < y then true else if y < x then false else arrayLt xs ys

/-- Strict comparison on candidate `(path, depth)` pairs: by depth, then
by array order on the path. -/
def candLt (x y : List Nat × Nat) : Bool :=
  x.2 < y.2 || (x.2 == y.2 && arrayLt x.1 y.1)

/-- `ORDER BY depth, path LIMIT 1`: least candidate under `candLt`. -/
def selectFirstMin (l : List (List Nat × Nat)) : Option (List Nat × Nat) :=
  l.foldl
    (fun acc c =>
      match acc with
      | none => some c
      | some b => if candLt c b then some c else some b)
    none

/-- Candidate result rows of a single-path query: CTE rows whose second
column hits `ending` and whose depth is within `md`, each yielding
`path || ARRAY[ending]` with its depth. -/
def pathCandidates (levels : Nat → List PathRow) (ending md : Nat) :
    List (List Nat × Nat) :=
  (pathRows levels md).filterMap (fun r =>
    if r.b == ending && r.depth ≤ md then some (r.path ++ [ending], r.depth) else none)

/-- `DownwardPathQuery.raw_queryset` as a pk list (`None` when the query
returns no row). -/
def downwardPathPks (st : DagState) (start ending md : Nat) : Option (List Nat) :=
  (selectFirstMin (pathCandidates (downRowsLevel st start) ending md)).map (·.1)

/-- `UpwardPathQuery.raw_queryset` as a pk list. -/
def upwardPathPks (st : DagState) (start ending md : Nat) : Option (List Nat) :=
  (selectFirstMin (pathCandidates (upRowsLevel st start) ending md)).map (·.1)

/-- Error raised by the path facade when no path is found. -/
inductive ReachErr where
  | nodeNotReachable
deriving DecidableEq, Repr

/-- `Node.path_raw(ending_node, directional=...)`: self-path shortcut,
downward probe, optional upward probe, else `NodeNotReachableException`. -/
def pathRawPks (st : DagState) (start ending : Nat) (directional : Bool) (md : Nat) :
    Except ReachErr (List Nat) :=
  if start = ending then .ok [start]
  else
    match downwardPathPks st start ending md with
    | some ps => .ok ps
    | none =>
      if directional then .error .nodeNotReachable
      else
        match upwardPathPks st start ending md with
        | some ps => .ok ps
        | none => .error .nodeNotReachable

/-- `Node.path(ending_node)`: the pk order of the hydrated queryset. -/
def pathFacade (st : DagState) (start ending : Nat) (directional : Bool) (md : Nat) :
    Except ReachErr (List Nat) :=
  if start = ending then .ok (querysetPks st [start])
  else (pathRawPks st start ending directional md).map (querysetPks st)

/-- `Node.distance(ending_node)`: `0` for self, else `path(...).count() - 1`. -/
def distanceFacade (st : DagState) (start ending : Nat) (directional : Bool) (md : Nat) :
    Except ReachErr Nat :=
  if start = ending then .ok 0
  else (pathFacade st start ending directional md).map (fun l => l.length - 1)

/-- Bounded self-inclusive ancestor set of `LCAQuery`: anchor `(pk, 0)`,
recursive member guarded by `depth < max_depth`. -/
def lcaAncSet (st : DagState) (pk md : Nat) : List Nat :=
  ((List.range (md + 1)).flatMap (upLevel st pk)).dedup

/-- The `common` CTE of `LCAQuery`: intersection of the two bounded
self-inclusive ancestor sets. -/
def lcaCommon (st : DagState) (a b md : Nat) : List Nat :=
  (lcaAncSet st a md).filter (fun n => decide (n ∈ lcaAncSet st b md))

/-- Result pks of `LCAQuery.raw_queryset`: members of `common` with no
direct edge into another member, `ORDER BY pk ASC`. -/
def lcaPks (st : DagState) (a b md : Nat) : List Nat :=
  sortNat ((lcaCommon st a b md).filter
    (fun c => !(st.edges.any (fun e => e.parent == c && decide (e.child ∈ lcaCommon st a b md)))))

/-- `Node.lowest_common_ancestors(other)`: hydrated queryset pk order. -/
def lcaFacade (st : DagState) (a b md : Nat) : List Nat :=
  querysetPks st (lcaPks st a b md)

/-- Anchor of `TopologicalSortQuery`: distinct parents that have no
incoming edge, at depth 0. -/
def topoAnchor (st : DagState) : List Nat :=
  ((st.edges.filter (fun e => !(st.edges.any (fun e2 => e2.child == e.parent)))).map
    (·.parent)).dedup

/-- Depth-`d` rows of `TopologicalSortQuery` (the recursive member is
guarded by `depth < max_depth`, so only levels `0..md` materialise). -/
def topoLevel (st : DagState) : Nat → List Nat :=
  genLevel (childrenOf st) (topoAnchor st)

/-- Result pk order of `TopologicalSortQuery.raw_queryset`: group by pk
with `ORDER BY MAX(depth) ASC, pk ASC` over depths `0..md`. -/
def topoCtePks (st : DagState) (md : Nat) : List Nat :=
  (List.range (md + 1)).flatMap
    (fun d => sortNat (((topoLevel st d).dedup).filter
      (fun n => decide (inMaxGroup (topoLevel st) md d n))))

/-- `NodeManager.topological_sort`: island pks (node pks absent from the
CTE result) sorted ascending, prepended to the CTE order, then hydrated. -/
def topologicalSortPks (st : DagState) (md : Nat) : List Nat :=
  let cte := topoCtePks st md
  let islands := sortNat (dedupFirst (st.nodes.filter (fun n => decide (n ∉ cte))))
  querysetPks st (islands ++ cte)

/-- The `roots` CTE of `CriticalPathQuery`: node-table rows with no
incoming edge. -/
def cpRoots (st : DagState) : List Nat :=
  st.nodes.filter (fun n => !(st.edges.any (fun e => e.child == n)))

/-- A row of the `traverse` CTE of `CriticalPathQuery`. -/
structure CPRow where
  node : Nat
  depth : Nat
  path : List Nat
  w : Int
deriving DecidableEq, Repr

/-- Per-edge weight term of `CriticalPathQuery`: the weight column when a
weight field is requested, else the constant 1. -/
def cpWeight (weighted : Bool) (e : EdgeT) : Int :=
  if weighted then e.weight else 1

/-- Depth-`d` rows of the `traverse` CTE of `CriticalPathQuery`:
anchor on every root with weight 0; extensions are self-avoiding and
guarded by `depth < max_depth`. -/
def cpLevel (st : DagState) (weighted : Bool) (md : Nat) : Nat → List CPRow
  | 0 => (cpRoots st).map (fun r => ⟨r, 0, [r], 0⟩)
  | d + 1 =>
    if d < md then
      (cpLevel st weighted md d).flatMap (fun t =>
        (st.edges.filter (fun e => e.parent == t.node && !(t.path.contains e.child))).map
          (fun e => ⟨e.child, d + 1, t.path ++ [e.child], t.w + cpWeight weighted e⟩))
    else []

/-- The `leaf_paths` CTE: traverse rows whose node has no outgoing edge,
then `best_path`: `ORDER BY total_weight DESC LIMIT 1`. -/
def cpBest (st : DagState) (weighted : Bool) (md : Nat) : Option (List Nat × Int) :=
  (((List.range (md + 1)).flatMap (cpLevel st weighted md)).filter
    (fun t => !(st.edges.any (fun e => e.parent == t.node)))).foldl
    (fun acc t =>
      match acc with
      | none => some (t.path, t.w)
      | some b => if t.w > b.2 then some (t.path, t.w) else some b)
    none

/-- `CriticalPathQuery.result()`: `([], 0)` when no row is returned. -/
def criticalPathResult (st : DagState) (weighted : Bool) (md : Nat) : List Nat × Int :=
  match cpBest st weighted md with
  | none => ([], 0)
  | some (p, w) => (p, w)

/-- `NodeManager.critical_path()`: empty queryset with weight 0 when the
path is empty, else the hydrated path with its total weight. -/
def criticalPathFacade (st : DagState) (weighted : Bool) (md : Nat) : List Nat × Int :=
  let r := criticalPathResult st weighted md
  if r.1 = [] then ([], 0) else (querysetPks st r.1, r.2)

/-- A row of the `traverse` CTE of `ConnectedGraphQuery`: current node and
the path array that reached it. -/
structure ConnRow where
  node : Nat
  path : List Nat
deriving DecidableEq, Repr

/-- Level-`k` rows of `ConnectedGraphQuery`: anchor `(pk, ARRAY[pk])`;
the recursive member follows an edge in either direction to a node not on
the path, guarded by `array_length(path, 1) < max_depth`. -/
def connLevel (st : DagState) (start md : Nat) : Nat → List ConnRow
  | 0 => [⟨start, [start]⟩]
  | k + 1 =>
    (connLevel st start md k).flatMap (fun r =>
      (st.edges.filter (fun e => e.parent == r.node || e.child == r.node)).filterMap
        (fun e =>
          let nxt := if e.child == r.node then e.parent else e.child
          if !(r.path.contains nxt) && r.path.length < md then
            some ⟨nxt, r.path ++ [nxt]⟩
          else none))

/-- Result pks of `ConnectedGraphQuery.raw_queryset`: `SELECT DISTINCT`
over every traverse row. -/
def connPks (st : DagState) (start md : Nat) : List Nat :=
  ((List.range (md + 1)).flatMap (fun k => (connLevel st start md k).map (·.node))).dedup

/-- `Node.connected_graph()`: hydrated queryset pk order. -/
def connectedGraphFacade (st : DagState) (start md : Nat) : List Nat :=
  querysetPks st (connPks st start md)

/-- Loop body of `NodeManager.connected_components`: repeatedly pick a
remaining pk, take its connected graph plus itself as one component, and
drop those pks from the remaining set.  (Python iterates a `set` in
unspecified order; the embedding picks the first remaining pk.) -/
def connectedComponentsLoop (st : DagState) (md : Nat) : List Nat → List (List Nat)
  | [] => []
  | start :: rest =>
    let compPks := start :: connectedGraphFacade st start md
    let comp := st.nodes.filter (fun n => decide (n ∈ compPks))
    comp :: connectedComponentsLoop st md (rest.filter (fun n => decide (n ∉ compPks)))
termination_by l => l.length
decreasing_by
  simp only [List.length_cons]
  exact Nat.lt_succ_of_le (List.length_filter_le _ _)

/-- `NodeManager.connected_components()`. -/
def connectedComponents (st : DagState) (md : Nat) : List (List Nat) :=
  connectedComponentsLoop st md (dedupFirst st.nodes)

/-- The edge schema as seen by weight validation: field names paired with
whether the field is numeric. -/
def EdgeSchema : Type := List (String × Bool)

/-- Modelled from the spec: `validate_weight_field` is imported by
`query_builders.py` from `utils`, but its definition is absent from the
provided sources.  Per the spec (§4.5), the requested weight attribute
must exist on the edge schema and be numeric; otherwise the validation
fails (`InvalidWeightField`).  On success it returns the column name. -/
def validateWeightField (schema : EdgeSchema) (name : String) : Except Unit String :=
  match schema.find? (fun f => f.1 == name) with
  | some f => if f.2 then .ok f.1 else .error ()
  | none => .error ()

/-- A row of the weighted path CTEs: like `PathRow` plus the running
`total_weight`. -/
structure WPathRow where
  a : Nat
  b : Nat
  depth : Nat
  path : List Nat
  w : Int
deriving DecidableEq, Repr

/-- Depth-(k+1) rows of `WeightedDownwardPathQuery`: the downward
self-avoiding walk accumulating the weight column.  (The embedding's
single numeric column is `weight`.) -/
def wDownRowsLevel (st : DagState) (start : Nat) : Nat → List WPathRow
  | 0 =>
    (st.edges.filter (fun e => e.parent == start)).map
      (fun e => ⟨e.parent, e.child, 1, [e.parent], e.weight⟩)
  | k + 1 =>
    (wDownRowsLevel st start k).flatMap (fun r =>
      (st.edges.filter (fun e => e.parent == r.b && !(r.path.contains e.parent))).map
        (fun e => ⟨e.parent, e.child, k + 2, r.path ++ [e.parent], r.w + e.weight⟩))

/-- Depth-(k+1) rows of `WeightedUpwardPathQuery`. -/
def wUpRowsLevel (st : DagState) (start : Nat) : Nat → List WPathRow
  | 0 =>
    (st.edges.filter (fun e => e.child == start)).map
      (fun e => ⟨e.child, e.parent, 1, [e.child], e.weight⟩)
  | k + 1 =>
    (wUpRowsLevel st start k).flatMap (fun r =>
      (st.edges.filter (fun e => e.child == r.b && !(r.path.contains e.child))).map
        (fun e => ⟨e.child, e.parent, k + 2, r.path ++ [e.child], r.w + e.weight⟩))

/-- `ORDER BY total_weight ASC LIMIT 1` over the weighted candidates
(rows whose second column hits `ending` within the depth bound). -/
def wSelect (levels : Nat → List WPathRow) (ending md : Nat) : Option (List Nat × Int) :=
  (((List.range md).flatMap levels).filterMap (fun r =>
    if r.b == ending && r.depth ≤ md then some (r.path ++ [ending], r.w) else none)).foldl
    (fun acc c =>
      match acc with
      | none => some c
      | some b => if c.2 < b.2 then some c else some b)
    none

/-- Errors surfaced by the weighted path facade. -/
inductive WErr where
  | invalidWeightField
  | nodeNotReachable
deriving DecidableEq, Repr

/-- `Node.weighted_path_raw(...)` together with the trace of traversal
queries actually executed (modelling the `_dag_query_collector` entries
appended by `result()`).  The self-path shortcut returns before any query
object is even constructed; otherwise `WeightedDownwardPathQuery.__init__`
validates the weight field before any SQL is built or run. -/
def weightedPathRawTraced (st : DagState) (schema : EdgeSchema) (start ending : Nat)
    (weightField : String) (directional : Bool) (md : Nat) :
    Except WErr (List Nat × Int) × List String :=
  if start = ending then (.ok ([start], 0), [])
  else
    match validateWeightField schema weightField with
    | .error _ => (.error .invalidWeightField, [])
    | .ok _ =>
      match wSelect (wDownRowsLevel st start) ending md with
      | some res => (.ok res, ["WeightedDownwardPathQuery"])
      | none =>
        if directional then (.error .nodeNotReachable, ["WeightedDownwardPathQuery"])
        else
          match wSelect (wUpRowsLevel st start) ending md with
          | some res => (.ok res, ["WeightedDownwardPathQuery", "WeightedUpwardPathQuery"])
          | none =>
            (.error .nodeNotReachable, ["WeightedDownwardPathQuery", "WeightedUpwardPathQuery"])

/-- `Node.weighted_distance(...)`: the total weight of the raw result. -/
def weightedDistanceTraced (st : DagState) (schema : EdgeSchema) (start ending : Nat)
    (weightField : String) (directional : Bool) (md : Nat) : Except WErr Int × List String :=
  let r := weightedPathRawTraced st schema start ending weightField directional md
  (r.1.map (·.2), r.2)

/-- `Node.is_root()`: has children but no parents. -/
def isRootPred (st : DagState) (n : Nat) : Prop :=
  (∃ e ∈ st.edges, e.parent = n) ∧ ¬∃ e ∈ st.edges, e.child = n

instance (st : DagState) (n : Nat) : Decidable (isRootPred st n) := by
  unfold isRootPred
  infer_instance

/-- `Node.is_leaf()`: has parents but no children. -/
def isLeafPred (st : DagState) (n : Nat) : Prop :=
  (∃ e ∈ st.edges, e.child = n) ∧ ¬∃ e ∈ st.edges, e.parent = n

instance (st : DagState) (n : Nat) : Decidable (isLeafPred st n) := by
  unfold isLeafPred
  infer_instance

/-- `Node.is_island()`: no parents and no children. -/
def isIslandPred (st : DagState) (n : Nat) : Prop :=
  (¬∃ e ∈ st.edges, e.parent = n) ∧ ¬∃ e ∈ st.edges, e.child = n

instance (st : DagState) (n : Nat) : Decidable (isIslandPred st n) := by
  unfold isIslandPred
  infer_instance

/-- `Node.roots()`: the node itself when it has no ancestors, else the
ancestors with no incoming edge. -/
def rootsFacade (st : DagState) (n md : Nat) : List Nat :=
  let anc := querysetPks st (ancestorPks st n md)
  if anc = [] then querysetPks st [n]
  else anc.filter (fun m => !(st.edges.any (fun e => e.child == m)))

/-- `Node.leaves()`: the node itself when it has no descendants, else the
descendants with no outgoing edge. -/
def leavesFacade (st : DagState) (n md : Nat) : List Nat :=
  let desc := querysetPks st (descendantPks st n md)
  if desc = [] then querysetPks st [n]
  else desc.filter (fun m => !(st.edges.any (fun e => e.parent == m)))

/-- One undirected adjacency step (an edge in either direction), the step
relation of `ConnectedGraphQuery`. -/
def undirStep (st : DagState) (a b : Nat) : Prop :=
  isEdge st a b ∨ isEdge st b a

instance (st : DagState) (a b : Nat) : Decidable (undirStep st a b) := by
  unfold undirStep
  infer_instance

/-- `y` is an ancestor of or equal to `x` (self-inclusive upward
reachability, unbounded). -/
def upReach (st : DagState) (x y : Nat) : Prop :=
  ∃ d, y ∈ upLevel st x d

/-- `y` is a strict ancestor of `x`. -/
def properUpReach (st : DagState) (x y : Nat) : Prop :=
  ∃ d, 0 < d ∧ y ∈ upLevel st x d

/-- `y` is a descendant of or equal to `x`. -/
def downReach (st : DagState) (x y : Nat) : Prop :=
  ∃ d, y ∈ downLevel st x d

/-- `y` is a strict descendant of `x`. -/
def properDownReach (st : DagState) (x y : Nat) : Prop :=
  ∃ d, 0 < d ∧ y ∈ downLevel st x d

/-- Undirected (weak) reachability: some chain of undirected steps from
`x` to `y`. -/
def undirReach (st : DagState) (x y : Nat) : Prop :=
  ∃ l, List.Chain' (undirStep st) l ∧ l.head? = some x ∧ l.getLast? = some y

/-- Decidable acyclicity: no node of the node table lies on a parentward
cycle of length at most the node count (by chain shortening this rules
out all cycles). -/
def acyclicDec (st : DagState) : Prop :=
  ∀ n ∈ st.nodes, ∀ d < st.nodes.length + 1, 0 < d → n ∉ upLevel st n d

instance (st : DagState) : Decidable (acyclicDec st) := by
  unfold acyclicDec
  infer_instance

/-- Well-formed store for depth bound `md`: distinct node pks, edge
endpoints present in the node table (foreign keys), a depth bound large
enough for every simple traversal, and acyclicity. -/
def Wf (st : DagState) (md : Nat) : Prop :=
  st.nodes.Nodup ∧ (∀ e ∈ st.edges, e.parent ∈ st.nodes ∧ e.child ∈ st.nodes) ∧
    st.nodes.length ≤ md ∧ acyclicDec st

instance (st : DagState) (md : Nat) : Decidable (Wf st md) := by
  unfold Wf
  infer_instance

/-- Invariant of the downward path CTE rows: the path array is a
duplicate-free root-to-leaf edge chain from `start` ending at the row's
parent column, the row's columns form an edge, and every path entry is
an edge parent. -/
def DownRowInv (st : DagState) (start : Nat) (r : PathRow) : Prop :=
  r.path.head? = some start ∧ r.path.getLast? = some r.a ∧ isEdge st r.a r.b ∧
    List.Chain' (fun u v => isEdge st u v) r.path ∧ r.path.Nodup ∧
    ∀ z ∈ r.path, ∃ e ∈ st.edges, e.parent = z

/-- Invariant of the upward path CTE rows: the path array is a
duplicate-free leaf-to-root chain (each consecutive pair is a
child-parent step) from `start` ending at the row's child column. -/
def UpRowInv (st : DagState) (start : Nat) (r : PathRow) : Prop :=
  r.path.head? = some start ∧ r.path.getLast? = some r.a ∧ isEdge st r.b r.a ∧
    List.Chain' (fun u v => isEdge st v u) r.path ∧ r.path.Nodup ∧
    ∀ z ∈ r.path, ∃ e ∈ st.edges, e.child = z

/-- Bounded strict-ancestor set (termination measure for the
topological-sort completeness argument). -/
def properUpSetB (st : DagState) (n : Nat) : List Nat :=
  (((List.range st.nodes.length).map (· + 1)).flatMap (upLevel st n)).dedup

/-! ### Concrete example stores -/

/-- A three-node chain 1 → 2 → 3. -/
def stChain3 : DagState :=
  ⟨[1, 2, 3], [⟨1, 1, 2, 1⟩, ⟨2, 2, 3, 1⟩]⟩

/-- Two nodes with the single edge 1 → 2. -/
def stEdge12 : DagState :=
  ⟨[1, 2], [⟨1, 1, 2, 1⟩]⟩

/-- A single isolated node 7. -/
def stSingle7 : DagState :=
  ⟨[7], []⟩

/-- The empty graph. -/
def stEmpty : DagState :=
  ⟨[], []⟩

/-- A chain 1 → 2 with the isolated node 4. -/
def stChainAndIsland : DagState :=
  ⟨[1, 2, 4], [⟨1, 1, 2, 1⟩]⟩

/-- An edge schema with a numeric `weight` field and a non-numeric
`name` field (as in the repository's test models). -/
def schemaWeighted : List (String × Bool) :=
  [("weight", true), ("name", false)]

/-! ### List helper lemmas -/

theorem mem_dedupFirst {x : Nat} {l : List Nat} : x ∈ dedupFirst l ↔ x ∈ l := by
  induction l with
  | nil => simp [dedupFirst]
  | cons a l ih =>
    simp only [dedupFirst, List.mem_cons, List.mem_filter, ih]
    constructor
    · rintro (rfl | ⟨h, _⟩)
      · exact .inl rfl
      · exact .inr h
    · rintro (rfl | h)
      · exact .inl rfl
      · rcases eq_or_ne x a with rfl | hxa
        · exact .inl rfl
        · exact .inr ⟨h, by simpa using hxa⟩

theorem nodup_dedupFirst {l : List Nat} : (dedupFirst l).Nodup := by
  induction l with
  | nil => simp [dedupFirst]
  | cons a l ih =>
    rw [dedupFirst, List.nodup_cons]
    refine ⟨fun hmem => ?_, ih.filter _⟩
    have := (List.mem_filter.mp hmem).2
    simp at this

theorem dedupFirst_eq_self {l : List Nat} (h : l.Nodup) : dedupFirst l = l := by
  induction l with
  | nil => rfl
  | cons a l ih =>
    rw [List.nodup_cons] at h
    rw [dedupFirst, ih h.2, List.filter_eq_self.mpr]
    intro x hx
    have : x ≠ a := fun hxa => h.1 (hxa ▸ hx)
    simpa using this

theorem insertAsc_perm (a : Nat) (l : List Nat) : (insertAsc a l).Perm (a :: l) := by
  induction l with
  | nil => simp [insertAsc]
  | cons b l ih =>
    rw [insertAsc]
    split
    · exact List.Perm.refl _
    · exact (ih.cons b).trans (List.Perm.swap a b l)

theorem sortNat_perm (l : List Nat) : (sortNat l).Perm l := by
  induction l with
  | nil => simp [sortNat]
  | cons a l ih => exact (insertAsc_perm a (sortNat l)).trans (ih.cons a)

theorem mem_sortNat {x : Nat} {l : List Nat} : x ∈ sortNat l ↔ x ∈ l :=
  (sortNat_perm l).mem_iff

theorem mem_querysetPks {st : DagState} {pks : List Nat} {x : Nat} :
    x ∈ querysetPks st pks ↔ x ∈ pks ∧ x ∈ st.nodes := by
  simp [querysetPks, List.mem_filter, mem_dedupFirst]

theorem querysetPks_eq_self {st : DagState} {pks : List Nat} (hnd : pks.Nodup)
    (hsub : ∀ x ∈ pks, x ∈ st.nodes) : querysetPks st pks = pks := by
  rw [querysetPks, dedupFirst_eq_self hnd, List.filter_eq_self.mpr]
  intro x hx
  simpa using hsub x hx

/-! ### Chains and CTE level characterisation -/

theorem mem_parentsOf {st : DagState} {p n : Nat} :
    p ∈ parentsOf st n ↔ isEdge st p n := by
  simp only [parentsOf, List.mem_map, List.mem_filter, beq_iff_eq, isEdge]
  constructor
  · rintro ⟨e, ⟨he, hc⟩, hp⟩
    exact ⟨e, he, hp, hc⟩
  · rintro ⟨e, he, hp, hc⟩
    exact ⟨e, ⟨he, hc⟩, hp⟩

theorem mem_childrenOf {st : DagState} {c n : Nat} :
    c ∈ childrenOf st n ↔ isEdge st n c := by
  simp only [childrenOf, List.mem_map, List.mem_filter, beq_iff_eq, isEdge]
  constructor
  · rintro ⟨e, ⟨he, hp⟩, hc⟩
    exact ⟨e, he, hp, hc⟩
  · rintro ⟨e, he, hp, hc⟩
    exact ⟨e, ⟨he, hp⟩, hc⟩

theorem mem_genLevel_succ {step : Nat → List Nat} {start : List Nat} {d n : Nat} :
    n ∈ genLevel step start (d + 1) ↔ ∃ m ∈ genLevel step start d, n ∈ step m := by
  simp [genLevel, List.mem_dedup, List.mem_flatMap]

theorem mem_genLevel_iff_chain {step : Nat → List Nat} {start : List Nat} :
    ∀ {d n : Nat},
      n ∈ genLevel step start d ↔
        ∃ l s, List.Chain' (fun a b => b ∈ step a) l ∧ s ∈ start ∧
          l.head? = some s ∧ l.getLast? = some n ∧ l.length = d + 1 := by
  intro d
  induction d with
  | zero =>
    intro n
    constructor
    · intro hn
      exact ⟨[n], n, List.chain'_singleton n, hn, rfl, rfl, rfl⟩
    · rintro ⟨l, s, _, hs, hh, hlast, hlen⟩
      match l, hlen with
      | [a], _ =>
        simp only [List.head?_cons, Option.some.injEq] at hh
        simp only [List.getLast?_singleton, Option.some.injEq] at hlast
        rw [genLevel]
        rw [← hlast, hh]
        exact hs
  | succ d ih =>
    intro n
    rw [mem_genLevel_succ]
    constructor
    · rintro ⟨m, hm, hstep⟩
      obtain ⟨l₁, s, hch, hs, hh, hlast, hlen⟩ := ih.mp hm
      have hne : l₁ ≠ [] := by
        intro h
        rw [h] at hlen
        simp at hlen
      refine ⟨l₁ ++ [n], s, ?_, hs, ?_, ?_, ?_⟩
      · rw [List.chain'_append]
        refine ⟨hch, List.chain'_singleton n, ?_⟩
        intro x hx y hy
        rw [hlast] at hx
        simp only [Option.mem_def, Option.some.injEq] at hx
        simp only [List.head?_cons, Option.mem_def, Option.some.injEq] at hy
        rw [← hy, ← hx]
        exact hstep
      · rw [List.head?_append, hh]
        rfl
      · rw [List.getLast?_append]
        rfl
      · simp [hlen]
    · rintro ⟨l, s, hch, hs, hh, hlast, hlen⟩
      have hne : l ≠ [] := by
        intro h
        rw [h] at hlen
        simp at hlen
      have hlast' : l.getLast hne = n := by
        rw [List.getLast?_eq_getLast l hne] at hlast
        exact Option.some.inj hlast
      have hdecomp : l.dropLast ++ [n] = l := by
        rw [← hlast']
        exact List.dropLast_append_getLast hne
      have hlen₁ : l.dropLast.length = d + 1 := by
        rw [List.length_dropLast, hlen]
        omega
      have hne₁ : l.dropLast ≠ [] := by
        intro h
        rw [h] at hlen₁
        simp at hlen₁
      rw [← hdecomp, List.chain'_append] at hch
      obtain ⟨hch₁, _, hR⟩ := hch
      have hh₁ : l.dropLast.head? = some s := by
        rw [← hdecomp, List.head?_append, List.head?_eq_head hne₁] at hh
        rw [List.head?_eq_head hne₁]
        simpa using hh
      set m := l.dropLast.getLast hne₁ with hm
      have hmem : m ∈ genLevel step start d :=
        ih.mpr ⟨l.dropLast, s, hch₁, hs, hh₁, List.getLast?_eq_getLast _ hne₁, hlen₁⟩
      refine ⟨m, hmem, ?_⟩
      exact hR m (by rw [List.getLast?_eq_getLast _ hne₁]; rfl) n rfl

theorem mem_upLevel_iff_chain {st : DagState} {pk d n : Nat} :
    n ∈ upLevel st pk d ↔
      ∃ l, List.Chain' (fun a b => isEdge st b a) l ∧ l.head? = some pk ∧
        l.getLast? = some n ∧ l.length = d + 1 := by
  rw [upLevel, mem_genLevel_iff_chain]
  constructor
  · rintro ⟨l, s, hch, hs, hh, hlast, hlen⟩
    rw [List.mem_singleton] at hs
    exact ⟨l, hch.imp (fun a b hb => mem_parentsOf.mp hb), hs ▸ hh, hlast, hlen⟩
  · rintro ⟨l, hch, hh, hlast, hlen⟩
    exact ⟨l, pk, hch.imp (fun a b hb => mem_parentsOf.mpr hb), List.mem_singleton.mpr rfl,
      hh, hlast, hlen⟩

theorem mem_downLevel_iff_chain {st : DagState} {pk d n : Nat} :
    n ∈ downLevel st pk d ↔
      ∃ l, List.Chain' (fun a b => isEdge st a b) l ∧ l.head? = some pk ∧
        l.getLast? = some n ∧ l.length = d + 1 := by
  rw [downLevel, mem_genLevel_iff_chain]
  constructor
  · rintro ⟨l, s, hch, hs, hh, hlast, hlen⟩
    rw [List.mem_singleton] at hs
    exact ⟨l, hch.imp (fun a b hb => mem_childrenOf.mp hb), hs ▸ hh, hlast, hlen⟩
  · rintro ⟨l, hch, hh, hlast, hlen⟩
    exact ⟨l, pk, hch.imp (fun a b hb => mem_childrenOf.mpr hb), List.mem_singleton.mpr rfl,
      hh, hlast, hlen⟩

/-- Up/down duality: `y` is reached downward from `x` in `d` steps iff
`x` is reached upward from `y` in `d` steps. -/
theorem downLevel_iff_upLevel {st : DagState} {x y d : Nat} :
    y ∈ downLevel st x d ↔ x ∈ upLevel st y d := by
  rw [mem_downLevel_iff_chain, mem_upLevel_iff_chain]
  constructor
  · rintro ⟨l, hch, hh, hlast, hlen⟩
    refine ⟨l.reverse, ?_, ?_, ?_, ?_⟩
    · rw [List.chain'_reverse]
      exact hch.imp (fun a b hb => hb)
    · rw [List.head?_reverse]
      exact hlast
    · rw [List.getLast?_reverse]
      exact hh
    · rw [List.length_reverse]
      exact hlen
  · rintro ⟨l, hch, hh, hlast, hlen⟩
    refine ⟨l.reverse, ?_, ?_, ?_, ?_⟩
    · rw [List.chain'_reverse]
      exact hch.imp (fun a b hb => hb)
    · rw [List.head?_reverse]
      exact hlast
    · rw [List.getLast?_reverse]
      exact hh
    · rw [List.length_reverse]
      exact hlen

/-- Cutting a chain with a repeated element: a strictly shorter chain
with the same endpoints, made of elements of the original. -/
theorem chain_cut {R : Nat → Nat → Prop} :
    ∀ {l : List Nat}, List.Chain' R l → ¬l.Nodup →
      ∃ l', List.Chain' R l' ∧ l'.length < l.length ∧ l'.head? = l.head? ∧
        l'.getLast? = l.getLast? ∧ l' ⊆ l := by
  intro l
  induction l with
  | nil => intro _ hnd; exact absurd List.nodup_nil hnd
  | cons x t ih =>
    intro hch hnd
    rw [List.nodup_cons] at hnd
    push_neg at hnd
    by_cases hx : x ∈ t
    · obtain ⟨t1, t2, rfl⟩ := List.append_of_mem hx
      have hsplit : x :: (t1 ++ x :: t2) = (x :: t1) ++ (x :: t2) := by simp
      refine ⟨x :: t2, ?_, ?_, rfl, ?_, ?_⟩
      · rw [hsplit, List.chain'_append] at hch
        exact hch.2.1
      · simp only [List.length_cons, List.length_append]
        omega
      · rw [hsplit, List.getLast?_append,
          Option.or_of_isSome (List.getLast?_isSome.mpr (List.cons_ne_nil x t2))]
      · rw [hsplit]
        exact List.subset_append_right _ _
    · have hndt : ¬t.Nodup := hnd hx
      have hcht : List.Chain' R t := (List.chain'_cons'.mp hch).2
      obtain ⟨t', hch', hlt, hh', hlast', hsub'⟩ := ih hcht hndt
      have htne : t ≠ [] := by
        intro h
        rw [h] at hndt
        exact hndt List.nodup_nil
      have ht'ne : t' ≠ [] := by
        intro h
        rw [h] at hh'
        rw [List.head?_eq_head htne] at hh'
        simp at hh'
      refine ⟨x :: t', ?_, ?_, rfl, ?_, ?_⟩
      · rw [List.chain'_cons']
        refine ⟨fun y hy => ?_, hch'⟩
        rw [hh'] at hy
        exact (List.chain'_cons'.mp hch).1 y hy
      · simpa using hlt
      · show (([x] ++ t').getLast? = ([x] ++ t).getLast?)
        rw [List.getLast?_append, List.getLast?_append,
          Option.or_of_isSome (List.getLast?_isSome.mpr ht'ne),
          Option.or_of_isSome (List.getLast?_isSome.mpr htne)]
        exact hlast'
      · rw [List.cons_subset]
        exact ⟨List.mem_cons_self x t, hsub'.trans (List.subset_cons_self x t)⟩

theorem chain_shorten_aux {R : Nat → Nat → Prop} :
    ∀ (n : Nat) (l : List Nat), l.length ≤ n → List.Chain' R l →
      ∃ l', List.Chain' R l' ∧ l'.Nodup ∧ l'.head? = l.head? ∧
        l'.getLast? = l.getLast? ∧ l' ⊆ l := by
  intro n
  induction n with
  | zero =>
    intro l hlen _
    have : l = [] := List.length_eq_zero.mp (Nat.le_zero.mp hlen)
    subst this
    exact ⟨[], List.chain'_nil, List.nodup_nil, rfl, rfl, fun _ hz => hz⟩
  | succ n ih =>
    intro l hlen h
    by_cases hnd : l.Nodup
    · exact ⟨l, h, hnd, rfl, rfl, fun _ hz => hz⟩
    · obtain ⟨l', hch', hlt, hh', hlast', hsub'⟩ := chain_cut h hnd
      obtain ⟨l'', hch'', hnd'', hh'', hlast'', hsub''⟩ :=
        ih l' (by omega) hch'
      exact ⟨l'', hch'', hnd'', hh''.trans hh', hlast''.trans hlast', hsub''.trans hsub'⟩

/-- Every chain contains a duplicate-free chain with the same endpoints. -/
theorem chain_shorten {R : Nat → Nat → Prop} (l : List Nat) (h : List.Chain' R l) :
    ∃ l', List.Chain' R l' ∧ l'.Nodup ∧ l'.head? = l.head? ∧
      l'.getLast? = l.getLast? ∧ l' ⊆ l :=
  chain_shorten_aux l.length l (Nat.le_refl _) h

/-- Elements of a chain whose steps land in `ns` and whose head is in
`ns` all lie in `ns`. -/
theorem chain_mem_nodes {R : Nat → Nat → Prop} {ns : List Nat}
    (hR : ∀ a b, R a b → b ∈ ns) :
    ∀ {l : List Nat} {x : Nat}, List.Chain' R l → l.head? = some x → x ∈ ns →
      ∀ z ∈ l, z ∈ ns := by
  intro l
  induction l with
  | nil => intro x _ hh; simp at hh
  | cons a t ih =>
    intro x hch hh hx z hz
    simp only [List.head?_cons, Option.some.injEq] at hh
    rcases List.mem_cons.mp hz with rfl | hz'
    · rw [hh]; exact hx
    · match t, hz' with
      | b :: t', hz' =>
        have hb : b ∈ ns := hR a b (List.chain'_cons.mp hch).1
        exact ih (List.chain'_cons.mp hch).2 rfl hb z hz'

/-- A duplicate-free list over `ns` is no longer than `ns`. -/
theorem nodup_length_le {l ns : List Nat} (hnd : l.Nodup) (hsub : ∀ z ∈ l, z ∈ ns) :
    l.length ≤ ns.length := by
  calc l.length = l.toFinset.card := (List.toFinset_card_of_nodup hnd).symm
    _ ≤ ns.toFinset.card := Finset.card_le_card (fun z hz => by
        rw [List.mem_toFinset] at *
        exact hsub z (by simpa using hz))
    _ ≤ ns.length := List.toFinset_card_le ns

/-- Gluing two chains sharing an endpoint. -/
theorem chain_glue {R : Nat → Nat → Prop} {l₁ l₂ : List Nat} {y : Nat}
    (h₁ : List.Chain' R l₁) (h₂ : List.Chain' R l₂)
    (hl₁ : l₁.getLast? = some y) (hh₂ : l₂.head? = some y) :
    List.Chain' R (l₁ ++ l₂.tail) ∧ (l₁ ++ l₂.tail).head? = l₁.head? ∧
      (l₁ ++ l₂.tail).getLast? = l₂.getLast? ∧
      (l₁ ++ l₂.tail).length + 1 = l₁.length + l₂.length := by
  have hne₁ : l₁ ≠ [] := by
    intro h
    rw [h] at hl₁
    simp at hl₁
  match l₂, hh₂ with
  | y' :: t, hh₂ =>
    simp only [List.head?_cons, Option.some.injEq] at hh₂
    subst hh₂
    match t with
    | [] =>
      refine ⟨by simpa using h₁, by simp, ?_, by simp⟩
      simp only [List.tail_cons, List.append_nil]
      rw [hl₁]
      rfl
    | b :: t' =>
      have hchain : List.Chain' R (l₁ ++ (b :: t')) := by
        rw [List.chain'_append]
        refine ⟨h₁, (List.chain'_cons.mp h₂).2, ?_⟩
        intro u hu v hv
        rw [hl₁] at hu
        simp only [Option.mem_def, Option.some.injEq] at hu
        simp only [List.head?_cons, Option.mem_def, Option.some.injEq] at hv
        rw [← hu, ← hv]
        exact (List.chain'_cons.mp h₂).1
      refine ⟨hchain, ?_, ?_, ?_⟩
      · rw [List.head?_append, List.head?_eq_head hne₁]
        rfl
      · simp only [List.tail_cons]
        rw [List.getLast?_append,
          Option.or_of_isSome (List.getLast?_isSome.mpr (List.cons_ne_nil b t'))]
        rfl
      · simp only [List.tail_cons, List.length_append, List.length_cons]
        omega

/-- Transitivity of level membership: paths compose with added lengths. -/
theorem upLevel_trans {st : DagState} {x y z d₁ d₂ : Nat}
    (h₁ : y ∈ upLevel st x d₁) (h₂ : z ∈ upLevel st y d₂) :
    z ∈ upLevel st x (d₁ + d₂) := by
  obtain ⟨l₁, hc₁, hh₁, hl₁, hlen₁⟩ := mem_upLevel_iff_chain.mp h₁
  obtain ⟨l₂, hc₂, hh₂, hl₂, hlen₂⟩ := mem_upLevel_iff_chain.mp h₂
  obtain ⟨hch, hh, hlast, hlen⟩ := chain_glue hc₁ hc₂ hl₁ hh₂
  refine mem_upLevel_iff_chain.mpr ⟨l₁ ++ l₂.tail, hch, ?_, ?_, ?_⟩
  · rw [hh]; exact hh₁
  · rw [hlast]; exact hl₂
  · omega

/-- Any node reached by at least one upward step is an edge parent and so
lies in the node table of a well-formed store. -/
theorem upLevel_mem_nodes {st : DagState} {x y d : Nat}
    (hE : ∀ e ∈ st.edges, e.parent ∈ st.nodes ∧ e.child ∈ st.nodes)
    (hd : 0 < d) (h : y ∈ upLevel st x d) : y ∈ st.nodes := by
  match d, hd with
  | d' + 1, _ =>
    obtain ⟨m, _, hstep⟩ := mem_genLevel_succ.mp h
    obtain ⟨e, he, hp, _⟩ := mem_parentsOf.mp hstep
    exact hp ▸ (hE e he).1

/-- Bounded-depth transfer: an upward-reachable node is reachable within
fewer steps than the node count. -/
theorem upLevel_shorten {st : DagState} {x y d : Nat}
    (hE : ∀ e ∈ st.edges, e.parent ∈ st.nodes ∧ e.child ∈ st.nodes)
    (hx : x ∈ st.nodes) (h : y ∈ upLevel st x d) :
    ∃ d' < st.nodes.length, y ∈ upLevel st x d' := by
  obtain ⟨l, hch, hh, hlast, hlen⟩ := mem_upLevel_iff_chain.mp h
  obtain ⟨l', hch', hnd', hh', hlast', _⟩ := chain_shorten l hch
  have hmem : ∀ z ∈ l', z ∈ st.nodes := by
    refine chain_mem_nodes ?_ hch' (hh'.trans hh) hx
    intro a b hab
    obtain ⟨e, he, hp, _⟩ := hab
    exact hp ▸ (hE e he).1
  have hle : l'.length ≤ st.nodes.length := nodup_length_le hnd' hmem
  have hne : l' ≠ [] := by
    intro hempty
    rw [hempty] at hh'
    rw [hh, List.head?_nil] at hh'
    exact Option.noConfusion hh'
  have hpos : 0 < l'.length := List.length_pos.mpr hne
  refine ⟨l'.length - 1, by omega, mem_upLevel_iff_chain.mpr ⟨l', hch', ?_, ?_, by omega⟩⟩
  · exact hh'.trans hh
  · exact hlast'.trans hlast

/-- A chain that starts and ends at `x` with at least two entries splits
as `x :: (mid ++ [x])`. -/
theorem chain_cycle_decomp {l : List Nat} {x : Nat}
    (hh : l.head? = some x) (hlast : l.getLast? = some x) (hlen : 2 ≤ l.length) :
    ∃ mid, l = x :: (mid ++ [x]) := by
  match l, hh with
  | a :: t, hh =>
    simp only [List.head?_cons, Option.some.injEq] at hh
    subst hh
    have htne : t ≠ [] := by
      intro hempty
      rw [hempty] at hlen
      simp at hlen
    have hlastt : t.getLast htne = a := by
      have h1 : (a :: t).getLast? = t.getLast? := by
        rw [show a :: t = [a] ++ t by simp, List.getLast?_append,
          Option.or_of_isSome (List.getLast?_isSome.mpr htne)]
      rw [h1, List.getLast?_eq_getLast t htne] at hlast
      exact Option.some.inj hlast
    refine ⟨t.dropLast, ?_⟩
    rw [show t.dropLast ++ [a] = t from by rw [← hlastt]; exact List.dropLast_append_getLast htne]

/-- The last entry of a cycle-shaped list. -/
theorem getLast?_cycle {x : Nat} {mid : List Nat} :
    (x :: (mid ++ [x])).getLast? = some x := by
  rw [show x :: (mid ++ [x]) = (x :: mid) ++ [x] by simp, List.getLast?_append]
  rfl

/-- A cycle-shaped chain witnesses level membership at its length. -/
theorem cycle_chain_mem {st : DagState} {x : Nat} {mid : List Nat}
    (hch : List.Chain' (fun u v => isEdge st v u) (x :: (mid ++ [x]))) :
    x ∈ upLevel st x (mid.length + 1) := by
  refine mem_upLevel_iff_chain.mpr ⟨x :: (mid ++ [x]), hch, rfl, getLast?_cycle, ?_⟩
  simp

/-- Acyclicity transfer: under `Wf` no node lies on any parentward cycle,
of any length. -/
theorem no_up_cycle {st : DagState} {md : Nat} (hwf : Wf st md) :
    ∀ x d, 0 < d → x ∉ upLevel st x d := by
  obtain ⟨hnd, hE, hmd, hacy⟩ := hwf
  intro x d
  induction d using Nat.strong_induction_on with
  | _ d ih =>
    intro hd hmem
    obtain ⟨l, hch, hh, hlast, hlen⟩ := mem_upLevel_iff_chain.mp hmem
    have hxnodes : x ∈ st.nodes := upLevel_mem_nodes hE hd hmem
    obtain ⟨mid, rfl⟩ := chain_cycle_decomp hh hlast (by omega)
    have hlenmid : mid.length + 1 = d := by
      simp only [List.length_cons, List.length_append, List.length_singleton,
        List.length_nil] at hlen
      omega
    by_cases hxmid : x ∈ mid
    · -- a shorter cycle through the second occurrence of x
      obtain ⟨m1, m2, rfl⟩ := List.append_of_mem hxmid
      have hsplit : x :: ((m1 ++ x :: m2) ++ [x]) = (x :: m1) ++ (x :: (m2 ++ [x])) := by
        simp
      rw [hsplit, List.chain'_append] at hch
      have hshortmem := cycle_chain_mem hch.2.1
      refine ih (m2.length + 1) ?_ (by omega) hshortmem
      simp only [List.length_append, List.length_cons] at hlenmid
      omega
    · by_cases hmidnd : mid.Nodup
      · -- a genuine simple cycle: bounded length, killed by acyclicDec
        have hcyc : (x :: mid).Nodup := List.nodup_cons.mpr ⟨hxmid, hmidnd⟩
        have hsubn : ∀ z ∈ x :: mid, z ∈ st.nodes := by
          intro z hz
          have hR : ∀ u v : Nat, (fun a b => isEdge st b a) u v → v ∈ st.nodes := by
            intro u v huv
            obtain ⟨e, he, hp, _⟩ := huv
            exact hp ▸ (hE e he).1
          refine chain_mem_nodes hR hch rfl hxnodes z ?_
          rcases List.mem_cons.mp hz with rfl | hz'
          · exact List.mem_cons_self _ _
          · exact List.mem_cons_of_mem _ (List.mem_append_left _ hz')
        have hcard : (x :: mid).length ≤ st.nodes.length := nodup_length_le hcyc hsubn
        have hdlt : d < st.nodes.length + 1 := by
          simp only [List.length_cons] at hcard
          omega
        exact hacy x hxnodes d hdlt hd hmem
      · -- cut a duplicate inside mid and recurse on the shorter cycle
        have hchcons := List.chain'_cons'.mp hch
        have hchappend := List.chain'_append.mp hchcons.2
        obtain ⟨mid', hch', hlt', hh', hlast', _⟩ := chain_cut hchappend.1 hmidnd
        have hmidne : mid ≠ [] := by
          intro hempty
          rw [hempty] at hmidnd
          exact hmidnd List.nodup_nil
        have hmid'ne : mid' ≠ [] := by
          intro hempty
          rw [hempty, List.head?_nil] at hh'
          rw [List.head?_eq_head hmidne] at hh'
          exact Option.noConfusion hh'.symm
        have hchnew : List.Chain' (fun u v => isEdge st v u) (x :: (mid' ++ [x])) := by
          rw [List.chain'_cons']
          constructor
          · intro y hy
            rw [List.head?_append, List.head?_eq_head hmid'ne] at hy
            simp only [Option.or_some, Option.mem_def, Option.some.injEq] at hy
            have hheads : mid'.head hmid'ne = mid.head hmidne := by
              have h2 := hh'
              rw [List.head?_eq_head hmid'ne, List.head?_eq_head hmidne] at h2
              exact Option.some.inj h2
            refine hy ▸ hheads ▸ hchcons.1 (mid.head hmidne) ?_
            rw [List.head?_append, List.head?_eq_head hmidne]
            rfl
          · rw [List.chain'_append]
            refine ⟨hch', List.chain'_singleton x, ?_⟩
            intro u hu v hv
            rw [hlast'] at hu
            exact hchappend.2.2 u hu v hv
        have hshortmem := cycle_chain_mem hchnew
        exact ih (mid'.length + 1) (by omega) (by omega) hshortmem

/-! ### Membership in the ancestor / descendant query results -/

/-- A decidable property holding at `d ≤ md` holds at some greatest
depth below the bound. -/
theorem exists_greatest {P : Nat → Prop} [DecidablePred P] :
    ∀ {md d : Nat}, P d → d ≤ md →
      ∃ dm, dm ≤ md ∧ P dm ∧ d ≤ dm ∧ ∀ d', dm < d' → d' ≤ md → ¬P d' := by
  intro md
  induction md with
  | zero =>
    intro d hP hle
    have hd0 : d = 0 := Nat.le_zero.mp hle
    subst hd0
    exact ⟨0, Nat.le_refl 0, hP, Nat.le_refl 0, fun d' h1 h2 => by omega⟩
  | succ md ih =>
    intro d hP hle
    by_cases htop : P (md + 1)
    · exact ⟨md + 1, Nat.le_refl _, htop, hle, fun d' h1 h2 => by omega⟩
    · have hdle : d ≤ md := by
        rcases Nat.lt_or_ge d (md + 1) with h | h
        · omega
        · exact absurd hP (by
            have : d = md + 1 := by omega
            rw [this]
            exact htop)
      obtain ⟨dm, h1, h2, h3, h4⟩ := ih hP hdle
      refine ⟨dm, by omega, h2, h3, fun d' hgt hle' => ?_⟩
      rcases Nat.lt_or_ge d' (md + 1) with h | h
      · exact h4 d' hgt (by omega)
      · have : d' = md + 1 := by omega
        rw [this]
        exact htop

theorem mem_ancestorPks {st : DagState} {pk md n : Nat} :
    n ∈ ancestorPks st pk md ↔ ∃ d, 0 < d ∧ d ≤ md ∧ n ∈ upLevel st pk d := by
  rw [ancestorPks]
  simp only [List.mem_flatMap, List.mem_map, List.mem_range, mem_sortNat, List.mem_filter,
    List.mem_dedup, decide_eq_true_eq]
  constructor
  · rintro ⟨d, ⟨i, hi, rfl⟩, hmem, hpos, _⟩
    exact ⟨md - i, hpos, Nat.sub_le _ _, hmem⟩
  · rintro ⟨d, hdpos, hdle, hmem⟩
    obtain ⟨dm, hdmle, hPdm, hge, hmax⟩ :=
      @exists_greatest (fun d' => n ∈ upLevel st pk d') (fun _ => inferInstance) md d hmem hdle
    refine ⟨dm, ⟨md - dm, by omega, by omega⟩, hPdm, by omega, hPdm, ?_⟩
    intro d' hd' hgt
    exact hmax d' hgt (by omega)

theorem mem_descendantPks {st : DagState} {pk md n : Nat} :
    n ∈ descendantPks st pk md ↔ ∃ d, 0 < d ∧ d ≤ md ∧ n ∈ downLevel st pk d := by
  rw [descendantPks]
  simp only [List.mem_flatMap, List.mem_map, List.mem_range, mem_sortNat, List.mem_filter,
    List.mem_dedup, decide_eq_true_eq]
  constructor
  · rintro ⟨d, ⟨i, hi, rfl⟩, hmem, _⟩
    exact ⟨i + 1, Nat.succ_pos i, by omega, hmem⟩
  · rintro ⟨d, hdpos, hdle, hmem⟩
    obtain ⟨dm, hdmle, hPdm, hge, hmax⟩ :=
      @exists_greatest (fun d' => n ∈ downLevel st pk d') (fun _ => inferInstance) md d hmem hdle
    refine ⟨dm, ⟨dm - 1, by omega, by omega⟩, hPdm, hPdm, ?_⟩
    intro d' hd' hgt
    exact hmax d' hgt (by omega)

theorem mem_selfAndAncestorsPks {st : DagState} {pk md n : Nat} :
    n ∈ selfAndAncestorsPks st pk md ↔
      n = pk ∨ ∃ d, 0 < d ∧ d ≤ md ∧ n ∈ upLevel st pk d := by
  rw [selfAndAncestorsPks]
  simp only [List.mem_cons, List.mem_reverse, mem_ancestorPks]

theorem mem_selfAndDescendantsPks {st : DagState} {pk md n : Nat} :
    n ∈ selfAndDescendantsPks st pk md ↔
      n = pk ∨ ∃ d, 0 < d ∧ d ≤ md ∧ n ∈ downLevel st pk d := by
  rw [selfAndDescendantsPks]
  simp only [List.mem_cons, mem_descendantPks]

theorem upLevel_empty_of_no_parents {st : DagState} {pk : Nat}
    (h : parentsOf st pk = []) : ∀ d, 0 < d → upLevel st pk d = [] := by
  intro d hd
  induction d with
  | zero => omega
  | succ d ih =>
    show (((upLevel st pk d).flatMap (parentsOf st)).dedup) = []
    rcases Nat.eq_zero_or_pos d with rfl | hdpos
    · show ((([pk]).flatMap (parentsOf st)).dedup) = []
      simp [h]
    · rw [ih hdpos]
      rfl

theorem downLevel_empty_of_no_children {st : DagState} {pk : Nat}
    (h : childrenOf st pk = []) : ∀ d, 0 < d → downLevel st pk d = [] := by
  intro d hd
  induction d with
  | zero => omega
  | succ d ih =>
    show (((downLevel st pk d).flatMap (childrenOf st)).dedup) = []
    rcases Nat.eq_zero_or_pos d with rfl | hdpos
    · show ((([pk]).flatMap (childrenOf st)).dedup) = []
      simp [h]
    · rw [ih hdpos]
      rfl

/-! ### Path query soundness -/

theorem downRows_inv {st : DagState} {start : Nat} :
    ∀ k, ∀ r ∈ downRowsLevel st start k, DownRowInv st start r := by
  intro k
  induction k with
  | zero =>
    intro r hr
    simp only [downRowsLevel, List.mem_map, List.mem_filter, beq_iff_eq] at hr
    obtain ⟨e, ⟨he, hp⟩, rfl⟩ := hr
    refine ⟨by simp [hp], rfl, ⟨e, he, rfl, rfl⟩, List.chain'_singleton _,
      List.nodup_singleton _, ?_⟩
    intro z hz
    rw [List.mem_singleton] at hz
    exact ⟨e, he, hz.symm⟩
  | succ k ih =>
    intro r hr
    simp only [downRowsLevel, List.mem_flatMap, List.mem_map, List.mem_filter,
      Bool.and_eq_true, beq_iff_eq] at hr
    obtain ⟨r', hr', e, ⟨he, hpb, hnc⟩, rfl⟩ := hr
    obtain ⟨ihh, ihl, ihe, ihc, ihn, ihz⟩ := ih r' hr'
    have hpne : r'.path ≠ [] := by
      intro h
      rw [h] at ihh
      exact Option.noConfusion ihh
    have hnotmem : e.parent ∉ r'.path := by simpa using hnc
    refine ⟨?_, ?_, ⟨e, he, rfl, rfl⟩, ?_, ?_, ?_⟩
    · rw [List.head?_append, ihh]
      rfl
    · exact List.getLast?_concat _
    · rw [List.chain'_append]
      refine ⟨ihc, List.chain'_singleton _, ?_⟩
      intro x hx y hy
      rw [ihl] at hx
      simp only [Option.mem_def, Option.some.injEq] at hx
      simp only [List.head?_cons, Option.mem_def, Option.some.injEq] at hy
      rw [← hx, ← hy, ← hpb] at *
      exact ihe
    · exact ihn.append (List.nodup_singleton _) (List.disjoint_singleton.mpr hnotmem)
    · intro z hz
      rcases List.mem_append.mp hz with hz' | hz'
      · exact ihz z hz'
      · rw [List.mem_singleton] at hz'
        exact ⟨e, he, hz'.symm⟩

theorem upRows_inv {st : DagState} {start : Nat} :
    ∀ k, ∀ r ∈ upRowsLevel st start k, UpRowInv st start r := by
  intro k
  induction k with
  | zero =>
    intro r hr
    simp only [upRowsLevel, List.mem_map, List.mem_filter, beq_iff_eq] at hr
    obtain ⟨e, ⟨he, hc⟩, rfl⟩ := hr
    refine ⟨by simp [hc], rfl, ⟨e, he, rfl, rfl⟩, List.chain'_singleton _,
      List.nodup_singleton _, ?_⟩
    intro z hz
    rw [List.mem_singleton] at hz
    exact ⟨e, he, hz.symm⟩
  | succ k ih =>
    intro r hr
    simp only [upRowsLevel, List.mem_flatMap, List.mem_map, List.mem_filter,
      Bool.and_eq_true, beq_iff_eq] at hr
    obtain ⟨r', hr', e, ⟨he, hcb, hnc⟩, rfl⟩ := hr
    obtain ⟨ihh, ihl, ihe, ihc, ihn, ihz⟩ := ih r' hr'
    have hpne : r'.path ≠ [] := by
      intro h
      rw [h] at ihh
      exact Option.noConfusion ihh
    have hnotmem : e.child ∉ r'.path := by simpa using hnc
    refine ⟨?_, ?_, ⟨e, he, rfl, rfl⟩, ?_, ?_, ?_⟩
    · rw [List.head?_append, ihh]
      rfl
    · exact List.getLast?_concat _
    · rw [List.chain'_append]
      refine ⟨ihc, List.chain'_singleton _, ?_⟩
      intro x hx y hy
      rw [ihl] at hx
      simp only [Option.mem_def, Option.some.injEq] at hx
      simp only [List.head?_cons, Option.mem_def, Option.some.injEq] at hy
      rw [← hx, ← hy, ← hcb] at *
      exact ihe
    · exact ihn.append (List.nodup_singleton _) (List.disjoint_singleton.mpr hnotmem)
    · intro z hz
      rcases List.mem_append.mp hz with hz' | hz'
      · exact ihz z hz'
      · rw [List.mem_singleton] at hz'
        exact ⟨e, he, hz'.symm⟩

/-- A fold that keeps either the accumulator or the scanned element
returns an accumulator value or a list member. -/
theorem foldl_opt_mem {α : Type} {f : Option α → α → Option α}
    (hf : ∀ acc x c, f acc x = some c → acc = some c ∨ x = c) :
    ∀ (l : List α) (acc : Option α) (c : α),
      List.foldl f acc l = some c → acc = some c ∨ c ∈ l := by
  intro l
  induction l with
  | nil =>
    intro acc c h
    exact Or.inl h
  | cons x t ih =>
    intro acc c h
    rcases ih (f acc x) c h with h1 | h2
    · rcases hf acc x c h1 with h3 | h4
      · exact Or.inl h3
      · exact Or.inr (h4 ▸ List.mem_cons_self x t)
    · exact Or.inr (List.mem_cons_of_mem x h2)

theorem selectFirstMin_mem {l : List (List Nat × Nat)} {c : List Nat × Nat}
    (h : selectFirstMin l = some c) : c ∈ l := by
  rw [selectFirstMin] at h
  have hf : ∀ (acc : Option (List Nat × Nat)) (x c' : List Nat × Nat),
      (match acc with
       | none => some x
       | some b => if candLt x b then some x else some b) = some c' →
      acc = some c' ∨ x = c' := by
    intro acc x c' hfx
    match acc with
    | none =>
      exact Or.inr (Option.some.inj hfx)
    | some b =>
      simp only at hfx
      split at hfx
      · exact Or.inr (Option.some.inj hfx)
      · exact Or.inl hfx
  rcases foldl_opt_mem hf l none c h with h1 | h2
  · exact absurd h1 (by simp)
  · exact h2

theorem downwardPathPks_spec {st : DagState} {start ending md : Nat} {ps : List Nat}
    (h : downwardPathPks st start ending md = some ps) :
    ∃ r k, k < md ∧ r ∈ downRowsLevel st start k ∧ r.b = ending ∧
      ps = r.path ++ [ending] := by
  rw [downwardPathPks] at h
  cases hsel : selectFirstMin (pathCandidates (downRowsLevel st start) ending md) with
  | none =>
    rw [hsel] at h
    exact Option.noConfusion h
  | some c =>
    rw [hsel] at h
    have hc : c ∈ pathCandidates (downRowsLevel st start) ending md := selectFirstMin_mem hsel
    rw [pathCandidates, List.mem_filterMap] at hc
    obtain ⟨r, hr, heq⟩ := hc
    rw [pathRows, List.mem_flatMap] at hr
    obtain ⟨k, hk, hrk⟩ := hr
    rw [List.mem_range] at hk
    split at heq
    · rename_i hcond
      rw [Bool.and_eq_true, beq_iff_eq] at hcond
      refine ⟨r, k, hk, hrk, hcond.1, ?_⟩
      have hps : ps = c.1 := (Option.some.inj h).symm
      rw [hps, ← Option.some.inj heq]
    · exact Option.noConfusion heq

theorem upwardPathPks_spec {st : DagState} {start ending md : Nat} {ps : List Nat}
    (h : upwardPathPks st start ending md = some ps) :
    ∃ r k, k < md ∧ r ∈ upRowsLevel st start k ∧ r.b = ending ∧
      ps = r.path ++ [ending] := by
  rw [upwardPathPks] at h
  cases hsel : selectFirstMin (pathCandidates (upRowsLevel st start) ending md) with
  | none =>
    rw [hsel] at h
    exact Option.noConfusion h
  | some c =>
    rw [hsel] at h
    have hc : c ∈ pathCandidates (upRowsLevel st start) ending md := selectFirstMin_mem hsel
    rw [pathCandidates, List.mem_filterMap] at hc
    obtain ⟨r, hr, heq⟩ := hc
    rw [pathRows, List.mem_flatMap] at hr
    obtain ⟨k, hk, hrk⟩ := hr
    rw [List.mem_range] at hk
    split at heq
    · rename_i hcond
      rw [Bool.and_eq_true, beq_iff_eq] at hcond
      refine ⟨r, k, hk, hrk, hcond.1, ?_⟩
      have hps : ps = c.1 := (Option.some.inj h).symm
      rw [hps, ← Option.some.inj heq]
    · exact Option.noConfusion heq

/-- Appending the closing edge target to a downward row's path cannot
revisit the path in an acyclic store. -/
theorem ending_not_mem_down_path {st : DagState} {md start : Nat} (hwf : Wf st md)
    {r : PathRow} (hinv : DownRowInv st start r) : r.b ∉ r.path := by
  obtain ⟨hh, hl, he, hc, hn, hz⟩ := hinv
  intro hmem
  obtain ⟨p, q, hpq⟩ := List.append_of_mem hmem
  have hsuff : List.Chain' (fun u v => isEdge st u v) (r.b :: q) :=
    hc.suffix (by rw [hpq]; exact ⟨p, rfl⟩)
  have hlastq : (r.b :: q).getLast? = some r.a := by
    rw [hpq, List.getLast?_append,
      Option.or_of_isSome (List.getLast?_isSome.mpr (List.cons_ne_nil _ _))] at hl
    exact hl
  have hcyc : List.Chain' (fun u v => isEdge st u v) ((r.b :: q) ++ [r.b]) := by
    rw [List.chain'_append]
    refine ⟨hsuff, List.chain'_singleton _, ?_⟩
    intro x hx y hy
    rw [hlastq] at hx
    simp only [Option.mem_def, Option.some.injEq] at hx
    simp only [List.head?_cons, Option.mem_def, Option.some.injEq] at hy
    rw [← hx, ← hy]
    exact he
  have hdown : r.b ∈ downLevel st r.b (q.length + 1) :=
    mem_downLevel_iff_chain.mpr ⟨(r.b :: q) ++ [r.b], hcyc, rfl, List.getLast?_concat _, by simp⟩
  exact no_up_cycle hwf r.b (q.length + 1) (Nat.succ_pos _)
    (downLevel_iff_upLevel.mp hdown)

/-- Upward analogue of `ending_not_mem_down_path`. -/
theorem ending_not_mem_up_path {st : DagState} {md start : Nat} (hwf : Wf st md)
    {r : PathRow} (hinv : UpRowInv st start r) : r.b ∉ r.path := by
  obtain ⟨hh, hl, he, hc, hn, hz⟩ := hinv
  intro hmem
  obtain ⟨p, q, hpq⟩ := List.append_of_mem hmem
  have hsuff : List.Chain' (fun u v => isEdge st v u) (r.b :: q) :=
    hc.suffix (by rw [hpq]; exact ⟨p, rfl⟩)
  have hlastq : (r.b :: q).getLast? = some r.a := by
    rw [hpq, List.getLast?_append,
      Option.or_of_isSome (List.getLast?_isSome.mpr (List.cons_ne_nil _ _))] at hl
    exact hl
  have hcyc : List.Chain' (fun u v => isEdge st v u) ((r.b :: q) ++ [r.b]) := by
    rw [List.chain'_append]
    refine ⟨hsuff, List.chain'_singleton _, ?_⟩
    intro x hx y hy
    rw [hlastq] at hx
    simp only [Option.mem_def, Option.some.injEq] at hx
    simp only [List.head?_cons, Option.mem_def, Option.some.injEq] at hy
    rw [← hx, ← hy]
    exact he
  have hup : r.b ∈ upLevel st r.b (q.length + 1) :=
    mem_upLevel_iff_chain.mpr ⟨(r.b :: q) ++ [r.b], hcyc, rfl, List.getLast?_concat _, by simp⟩
  exact no_up_cycle hwf r.b (q.length + 1) (Nat.succ_pos _) hup

/-- Shape of a successful non-self `path_raw`: a downward or an upward
candidate row with the ending node appended. -/
theorem pathRaw_spec {st : DagState} {a b md : Nat} {dir : Bool} {ps : List Nat}
    (h : pathRawPks st a b dir md = .ok ps) (hne : a ≠ b) :
    (∃ r k, k < md ∧ r ∈ downRowsLevel st a k ∧ r.b = b ∧ ps = r.path ++ [b]) ∨
      (∃ r k, k < md ∧ r ∈ upRowsLevel st a k ∧ r.b = b ∧ ps = r.path ++ [b]) := by
  rw [pathRawPks, if_neg hne] at h
  cases hdown : downwardPathPks st a b md with
  | some ps' =>
    rw [hdown] at h
    have hps : ps' = ps := Except.ok.inj h
    exact Or.inl (hps ▸ downwardPathPks_spec hdown)
  | none =>
    rw [hdown] at h
    cases dir with
    | true => exact absurd h (by simp)
    | false =>
      simp only [Bool.false_eq_true, if_false] at h
      cases hupq : upwardPathPks st a b md with
      | some ps' =>
        rw [hupq] at h
        have hps : ps' = ps := Except.ok.inj h
        exact Or.inr (hps ▸ upwardPathPks_spec hupq)
      | none =>
        rw [hupq] at h
        exact absurd h (by simp)

/-! ### Claim C2 (amended half) -/

/-- C2 (amended): every successful `path_raw` result starts at the
starting node and ends at the ending node.  A path found by the downward
probe is ordered root-side to leaf-side (each consecutive pair is a
parent→child edge); a path found by the upward probe is ordered
leaf-side to root-side (each consecutive pair is a child→parent step),
not root-side first. -/
theorem C2_amended_path_order (st : DagState) (a b : Nat) (dir : Bool) (md : Nat)
    (ps : List Nat) (h : pathRawPks st a b dir md = .ok ps) :
    ps.head? = some a ∧ ps.getLast? = some b ∧
      (List.Chain' (fun u v => isEdge st u v) ps ∨
        List.Chain' (fun u v => isEdge st v u) ps) := by
  by_cases hab : a = b
  · subst hab
    rw [pathRawPks, if_pos rfl] at h
    have hps : [a] = ps := Except.ok.inj h
    subst hps
    exact ⟨rfl, rfl, Or.inl (List.chain'_singleton a)⟩
  · rcases pathRaw_spec h hab with ⟨r, k, hk, hr, hrb, rfl⟩ | ⟨r, k, hk, hr, hrb, rfl⟩
    · obtain ⟨hh, hl, he, hc, hn, hz⟩ := downRows_inv k r hr
      refine ⟨?_, List.getLast?_concat _, Or.inl ?_⟩
      · rw [List.head?_append, hh]
        rfl
      · rw [List.chain'_append]
        refine ⟨hc, List.chain'_singleton _, ?_⟩
        intro x hx y hy
        rw [hl] at hx
        simp only [Option.mem_def, Option.some.injEq] at hx
        simp only [List.head?_cons, Option.mem_def, Option.some.injEq] at hy
        rw [← hx, ← hy, ← hrb]
        exact he
    · obtain ⟨hh, hl, he, hc, hn, hz⟩ := upRows_inv k r hr
      refine ⟨?_, List.getLast?_concat _, Or.inr ?_⟩
      · rw [List.head?_append, hh]
        rfl
      · rw [List.chain'_append]
        refine ⟨hc, List.chain'_singleton _, ?_⟩
        intro x hx y hy
        rw [hl] at hx
        simp only [Option.mem_def, Option.some.injEq] at hx
        simp only [List.head?_cons, Option.mem_def, Option.some.injEq] at hy
        rw [← hx, ← hy, ← hrb]
        exact he

/-- Witness for the amended C2: the upward probe from 2 to 1 in the
single-edge store. -/
theorem C2_amended_path_order_witness :
    ([2, 1] : List Nat).head? = some 2 ∧ ([2, 1] : List Nat).getLast? = some 1 ∧
      (List.Chain' (fun u v => isEdge stEdge12 u v) [2, 1] ∨
        List.Chain' (fun u v => isEdge stEdge12 v u) [2, 1]) :=
  C2_amended_path_order stEdge12 2 1 false defaultMaxDepth [2, 1] rfl

/-! ### Claim C6 -/

/-- C6: whenever `path(A, B)` succeeds, its first element is A, its last
element is B, and `distance(A, B)` equals the length of the path minus
one (with `path(A, A) = [A]` and distance 0). -/
theorem C6_distance_is_path_length_minus_one (st : DagState) (md a b : Nat)
    (dir : Bool) (ps : List Nat) (hwf : Wf st md) (ha : a ∈ st.nodes)
    (hb : b ∈ st.nodes) (h : pathFacade st a b dir md = .ok ps) :
    ps.head? = some a ∧ ps.getLast? = some b ∧
      distanceFacade st a b dir md = .ok (ps.length - 1) := by
  have hE : ∀ e ∈ st.edges, e.parent ∈ st.nodes ∧ e.child ∈ st.nodes := hwf.2.1
  by_cases hab : a = b
  · subst hab
    rw [pathFacade, if_pos rfl] at h
    have hq : querysetPks st [a] = [a] :=
      querysetPks_eq_self (List.nodup_singleton _) (by
        intro x hx
        rw [List.mem_singleton] at hx
        exact hx ▸ ha)
    rw [hq] at h
    have hps : [a] = ps := Except.ok.inj h
    subst hps
    refine ⟨rfl, rfl, ?_⟩
    rw [distanceFacade, if_pos rfl]
    rfl
  · rw [pathFacade, if_neg hab] at h
    cases hraw : pathRawPks st a b dir md with
    | error e =>
      rw [hraw] at h
      exact absurd h (by simp [Except.map])
    | ok ps₀ =>
      rw [hraw] at h
      simp only [Except.map] at h
      have hps : querysetPks st ps₀ = ps := Except.ok.inj h
      have hq : querysetPks st ps₀ = ps₀ := by
        rcases pathRaw_spec hraw hab with ⟨r, k, hk, hr, hrb, rfl⟩ | ⟨r, k, hk, hr, hrb, rfl⟩
        · have hinv := downRows_inv k r hr
          have hnm : r.b ∉ r.path := ending_not_mem_down_path hwf hinv
          obtain ⟨hh, hl, he, hc, hn, hz⟩ := hinv
          refine querysetPks_eq_self
            (hn.append (List.nodup_singleton _)
              (List.disjoint_singleton.mpr (hrb ▸ hnm)))
            ?_
          intro x hx
          rcases List.mem_append.mp hx with hx' | hx'
          · obtain ⟨e, he', hp⟩ := hz x hx'
            exact hp ▸ (hE e he').1
          · rw [List.mem_singleton] at hx'
            exact hx' ▸ hb
        · have hinv := upRows_inv k r hr
          have hnm : r.b ∉ r.path := ending_not_mem_up_path hwf hinv
          obtain ⟨hh, hl, he, hc, hn, hz⟩ := hinv
          refine querysetPks_eq_self
            (hn.append (List.nodup_singleton _)
              (List.disjoint_singleton.mpr (hrb ▸ hnm)))
            ?_
          intro x hx
          rcases List.mem_append.mp hx with hx' | hx'
          · obtain ⟨e, he', hp⟩ := hz x hx'
            exact hp ▸ (hE e he').2
          · rw [List.mem_singleton] at hx'
            exact hx' ▸ hb
      have hgoal : ps = ps₀ := by rw [← hps, hq]
      subst hgoal
      rcases pathRaw_spec hraw hab with ⟨r, k, hk, hr, hrb, hshape⟩ | ⟨r, k, hk, hr, hrb, hshape⟩
      · obtain ⟨hh, hl, he, hc, hn, hz⟩ := downRows_inv k r hr
        refine ⟨?_, ?_, ?_⟩
        · rw [hshape, List.head?_append, hh]
          rfl
        · rw [hshape]
          exact List.getLast?_concat _
        · rw [distanceFacade, if_neg hab, pathFacade, if_neg hab, hraw]
          simp only [Except.map]
          rw [hq]
      · obtain ⟨hh, hl, he, hc, hn, hz⟩ := upRows_inv k r hr
        refine ⟨?_, ?_, ?_⟩
        · rw [hshape, List.head?_append, hh]
          rfl
        · rw [hshape]
          exact List.getLast?_concat _
        · rw [distanceFacade, if_neg hab, pathFacade, if_neg hab, hraw]
          simp only [Except.map]
          rw [hq]

/-- Witness for C6 at the single-edge store. -/
theorem C6_distance_is_path_length_minus_one_witness :
    ([1, 2] : List Nat).head? = some 1 ∧ ([1, 2] : List Nat).getLast? = some 2 ∧
      distanceFacade stEdge12 1 2 true defaultMaxDepth
        = .ok (([1, 2] : List Nat).length - 1) :=
  C6_distance_is_path_length_minus_one stEdge12 defaultMaxDepth 1 2 true [1, 2]
    (by decide) (by decide) (by decide) rfl

/-! ### LCA infrastructure -/

theorem mem_upLevel_zero {st : DagState} {pk n : Nat} :
    n ∈ upLevel st pk 0 ↔ n = pk := List.mem_singleton

theorem mem_lcaAncSet {st : DagState} {pk md n : Nat} :
    n ∈ lcaAncSet st pk md ↔ ∃ d, d ≤ md ∧ n ∈ upLevel st pk d := by
  rw [lcaAncSet]
  simp only [List.mem_dedup, List.mem_flatMap, List.mem_range]
  constructor
  · rintro ⟨d, hd, hm⟩
    exact ⟨d, by omega, hm⟩
  · rintro ⟨d, hd, hm⟩
    exact ⟨d, by omega, hm⟩

/-- Under `Wf` the bounded self-inclusive ancestor set of the LCA query
coincides with unbounded upward reachability. -/
theorem mem_lcaAncSet_iff_upReach {st : DagState} {md pk n : Nat} (hwf : Wf st md)
    (hpk : pk ∈ st.nodes) : n ∈ lcaAncSet st pk md ↔ upReach st pk n := by
  rw [mem_lcaAncSet]
  constructor
  · rintro ⟨d, _, hm⟩
    exact ⟨d, hm⟩
  · rintro ⟨d, hm⟩
    obtain ⟨d', hd', hm'⟩ := upLevel_shorten hwf.2.1 hpk hm
    exact ⟨d', by have := hwf.2.2.1; omega, hm'⟩

theorem upReach_trans {st : DagState} {x y z : Nat} (h₁ : upReach st x y)
    (h₂ : upReach st y z) : upReach st x z := by
  obtain ⟨d₁, h₁⟩ := h₁
  obtain ⟨d₂, h₂⟩ := h₂
  exact ⟨d₁ + d₂, upLevel_trans h₁ h₂⟩

theorem upReach_refl {st : DagState} (x : Nat) : upReach st x x :=
  ⟨0, List.mem_singleton.mpr rfl⟩

theorem isEdge_downLevel_one {st : DagState} {x y : Nat} (h : isEdge st x y) :
    y ∈ downLevel st x 1 := by
  show y ∈ (([x].flatMap (childrenOf st)).dedup)
  rw [List.mem_dedup]
  simp only [List.flatMap_cons, List.flatMap_nil, List.append_nil]
  exact mem_childrenOf.mpr h

/-- First-step decomposition of a strict downward reach. -/
theorem properDownReach_first_step {st : DagState} {n m : Nat}
    (h : properDownReach st n m) : ∃ z, isEdge st n z ∧ downReach st z m := by
  obtain ⟨k, hk, hm⟩ := h
  obtain ⟨l, hch, hh, hlast, hlen⟩ := mem_downLevel_iff_chain.mp hm
  match k, hk with
  | k' + 1, _ =>
    match l, hh, hlen with
    | n' :: z :: rest, hh, hlen =>
      simp only [List.head?_cons, Option.some.injEq] at hh
      have hedge : isEdge st n' z := (List.chain'_cons.mp hch).1
      have hrest : m ∈ downLevel st z k' := by
        refine mem_downLevel_iff_chain.mpr ⟨z :: rest, (List.chain'_cons.mp hch).2, rfl, ?_, ?_⟩
        · rw [show (n' :: z :: rest).getLast? = (z :: rest).getLast? from rfl] at hlast
          exact hlast
        · simp only [List.length_cons] at hlen ⊢
          omega
      exact ⟨z, hh ▸ hedge, k', hrest⟩

/-- Membership in the result of `LCAQuery.raw_queryset`. -/
theorem mem_lcaPks {st : DagState} {a b md n : Nat} :
    n ∈ lcaPks st a b md ↔
      n ∈ lcaCommon st a b md ∧
        ∀ e ∈ st.edges, e.parent = n → e.child ∉ lcaCommon st a b md := by
  rw [lcaPks, mem_sortNat, List.mem_filter]
  simp only [Bool.not_eq_true', List.any_eq_false, Bool.and_eq_true, beq_iff_eq,
    decide_eq_true_eq, not_and]

theorem mem_lcaCommon {st : DagState} {a b md n : Nat} :
    n ∈ lcaCommon st a b md ↔ n ∈ lcaAncSet st a md ∧ n ∈ lcaAncSet st b md := by
  rw [lcaCommon, List.mem_filter, decide_eq_true_eq]

/-- Members of the bounded common-ancestor set lie in the node table. -/
theorem lcaCommon_mem_nodes {st : DagState} {md a b n : Nat}
    (hE : ∀ e ∈ st.edges, e.parent ∈ st.nodes ∧ e.child ∈ st.nodes)
    (ha : a ∈ st.nodes) (h : n ∈ lcaCommon st a b md) : n ∈ st.nodes := by
  obtain ⟨h1, _⟩ := mem_lcaCommon.mp h
  obtain ⟨d, _, hm⟩ := mem_lcaAncSet.mp h1
  rcases Nat.eq_zero_or_pos d with rfl | hdpos
  · rw [mem_upLevel_zero.mp hm]
    exact ha
  · exact upLevel_mem_nodes hE hdpos hm

/-! ### Claim C4 -/

/-- C4: `lowest_common_ancestors(A, B)` returns exactly the maximal
(lowest) elements of the intersection of the two self-inclusive ancestor
closures — a common ancestor is excluded iff another common ancestor is
strictly reachable downward from it; `lowest_common_ancestors(A, A)` is
exactly `{A}`; and when the two closures do not intersect the result is
empty rather than an error. -/
theorem C4_lca_maximal_common_ancestors (st : DagState) (md a b : Nat)
    (hwf : Wf st md) (ha : a ∈ st.nodes) (hb : b ∈ st.nodes) :
    (∀ n, n ∈ lcaFacade st a b md ↔
        upReach st a n ∧ upReach st b n ∧
          ¬∃ m, (upReach st a m ∧ upReach st b m) ∧ m ≠ n ∧ properDownReach st n m) ∧
      (∀ n, n ∈ lcaFacade st a a md ↔ n = a) ∧
      ((¬∃ m, upReach st a m ∧ upReach st b m) → lcaFacade st a b md = []) := by
  have hE := hwf.2.1
  have hcommon : ∀ x y n, x ∈ st.nodes → y ∈ st.nodes →
      (n ∈ lcaCommon st x y md ↔ upReach st x n ∧ upReach st y n) := by
    intro x y n hx hy
    rw [mem_lcaCommon, mem_lcaAncSet_iff_upReach hwf hx, mem_lcaAncSet_iff_upReach hwf hy]
  have hmain : ∀ x y n, x ∈ st.nodes → y ∈ st.nodes →
      (n ∈ lcaFacade st x y md ↔
        upReach st x n ∧ upReach st y n ∧
          ¬∃ m, (upReach st x m ∧ upReach st y m) ∧ m ≠ n ∧ properDownReach st n m) := by
    intro x y n hx hy
    rw [lcaFacade, mem_querysetPks, mem_lcaPks]
    constructor
    · rintro ⟨⟨hcom, hedge⟩, _⟩
      obtain ⟨hxn, hyn⟩ := (hcommon x y n hx hy).mp hcom
      refine ⟨hxn, hyn, ?_⟩
      rintro ⟨m, ⟨hxm, hym⟩, hmn, hdown⟩
      obtain ⟨z, hz, hzm⟩ := properDownReach_first_step hdown
      obtain ⟨e, he, hep, hec⟩ := hz
      -- z is a common ancestor: it sits above m, which is in both closures
      obtain ⟨kz, hkz⟩ := hzm
      have hmz : upReach st m z := ⟨kz, downLevel_iff_upLevel.mp hkz⟩
      have hzc : z ∈ lcaCommon st x y md :=
        (hcommon x y z hx hy).mpr ⟨upReach_trans hxm hmz, upReach_trans hym hmz⟩
      exact hedge e he hep (hec ▸ hzc)
    · rintro ⟨hxn, hyn, hmax⟩
      have hcom : n ∈ lcaCommon st x y md := (hcommon x y n hx hy).mpr ⟨hxn, hyn⟩
      refine ⟨⟨hcom, ?_⟩, lcaCommon_mem_nodes hE hx hcom⟩
      intro e he hep hchild
      obtain ⟨hxm, hym⟩ := (hcommon x y e.child hx hy).mp hchild
      have hedge : isEdge st n e.child := ⟨e, he, hep, rfl⟩
      have hne : e.child ≠ n := by
        intro hcn
        exact no_up_cycle hwf n 1 Nat.one_pos
          (by
            have := isEdge_downLevel_one (hcn ▸ hedge)
            exact downLevel_iff_upLevel.mp this)
      exact hmax ⟨e.child, ⟨hxm, hym⟩, hne, 1, Nat.one_pos, isEdge_downLevel_one hedge⟩
  refine ⟨fun n => hmain a b n ha hb, ?_, ?_⟩
  · intro n
    rw [hmain a a n ha ha]
    constructor
    · rintro ⟨haun, _, hmax⟩
      by_contra hne
      obtain ⟨d, hd⟩ := haun
      have hdpos : 0 < d := by
        rcases Nat.eq_zero_or_pos d with rfl | h
        · exact absurd (mem_upLevel_zero.mp hd) hne
        · exact h
      refine hmax ⟨a, ⟨upReach_refl a, upReach_refl a⟩, fun h => hne h.symm, d, hdpos, ?_⟩
      exact downLevel_iff_upLevel.mpr hd
    · rintro rfl
      refine ⟨upReach_refl n, upReach_refl n, ?_⟩
      rintro ⟨m, ⟨⟨d, hdm⟩, _⟩, hmn, k, hk, hkm⟩
      have hup : n ∈ upLevel st m k := downLevel_iff_upLevel.mp hkm
      exact no_up_cycle hwf n (d + k) (by omega) (upLevel_trans hdm hup)
  · intro hnone
    rw [lcaFacade]
    have hempty : lcaPks st a b md = [] := by
      rw [List.eq_nil_iff_forall_not_mem]
      intro m hm
      obtain ⟨hcom, _⟩ := mem_lcaPks.mp hm
      exact hnone ⟨m, (hcommon a b m ha hb).mp hcom⟩
    rw [hempty]
    rfl

/-- Witness for C4 at the chain 1 → 2 → 3. -/
theorem C4_lca_maximal_common_ancestors_witness :
    (∀ n, n ∈ lcaFacade stChain3 1 3 defaultMaxDepth ↔
        upReach stChain3 1 n ∧ upReach stChain3 3 n ∧
          ¬∃ m, (upReach stChain3 1 m ∧ upReach stChain3 3 m) ∧ m ≠ n ∧
            properDownReach stChain3 n m) ∧
      (∀ n, n ∈ lcaFacade stChain3 1 1 defaultMaxDepth ↔ n = 1) ∧
      ((¬∃ m, upReach stChain3 1 m ∧ upReach stChain3 3 m) →
        lcaFacade stChain3 1 3 defaultMaxDepth = []) :=
  C4_lca_maximal_common_ancestors stChain3 defaultMaxDepth 1 3
    (by decide) (by decide) (by decide)

/-! ### Topological sort infrastructure -/

theorem mem_properUpSetB {st : DagState} {n m : Nat} :
    m ∈ properUpSetB st n ↔ ∃ d, 0 < d ∧ d ≤ st.nodes.length ∧ m ∈ upLevel st n d := by
  rw [properUpSetB]
  simp only [List.mem_dedup, List.mem_flatMap, List.mem_map, List.mem_range]
  constructor
  · rintro ⟨d, ⟨i, hi, rfl⟩, hm⟩
    exact ⟨i + 1, by omega, by omega, hm⟩
  · rintro ⟨d, h1, h2, hm⟩
    exact ⟨d, ⟨d - 1, by omega, by omega⟩, hm⟩

theorem mem_properUpSetB_iff {st : DagState} {md n m : Nat} (hwf : Wf st md)
    (hn : n ∈ st.nodes) : m ∈ properUpSetB st n ↔ properUpReach st n m := by
  rw [mem_properUpSetB]
  constructor
  · rintro ⟨d, h1, _, hm⟩
    exact ⟨d, h1, hm⟩
  · rintro ⟨d, h1, hm⟩
    obtain ⟨d', hd', hm'⟩ := upLevel_shorten hwf.2.1 hn hm
    have hd'pos : 0 < d' := by
      rcases Nat.eq_zero_or_pos d' with rfl | h
      · exact absurd hm (mem_upLevel_zero.mp hm' ▸ no_up_cycle hwf n d h1)
      · exact h
    exact ⟨d', hd'pos, by omega, hm'⟩

theorem mem_topoAnchor {st : DagState} {n : Nat} :
    n ∈ topoAnchor st ↔
      (∃ e ∈ st.edges, e.parent = n) ∧ ¬∃ e2 ∈ st.edges, e2.child = n := by
  rw [topoAnchor]
  simp only [List.mem_dedup, List.mem_map, List.mem_filter, Bool.not_eq_true',
    List.any_eq_false, beq_iff_eq]
  constructor
  · rintro ⟨e, ⟨he, hno⟩, rfl⟩
    refine ⟨⟨e, he, rfl⟩, ?_⟩
    rintro ⟨e2, he2, hc⟩
    exact hno e2 he2 hc
  · rintro ⟨⟨e, he, hp⟩, hno⟩
    refine ⟨e, ⟨he, ?_⟩, hp⟩
    intro e2 he2 hc
    exact hno ⟨e2, he2, hp ▸ hc⟩

/-- Decomposition of a list with a duplicate. -/
theorem not_nodup_decomp : ∀ {l : List Nat}, ¬l.Nodup →
    ∃ z l1 l2 l3, l = l1 ++ (z :: (l2 ++ (z :: l3))) := by
  intro l
  induction l with
  | nil => intro h; exact absurd List.nodup_nil h
  | cons x t ih =>
    intro h
    rw [List.nodup_cons] at h
    push_neg at h
    by_cases hx : x ∈ t
    · obtain ⟨t1, t2, rfl⟩ := List.append_of_mem hx
      exact ⟨x, [], t1, t2, by simp⟩
    · obtain ⟨z, l1, l2, l3, rfl⟩ := ih (h hx)
      exact ⟨z, x :: l1, l2, l3, by simp⟩

/-- In a well-formed (acyclic) store, downward edge chains never repeat
a node. -/
theorem down_chain_nodup {st : DagState} {md : Nat} (hwf : Wf st md)
    {l : List Nat} (hch : List.Chain' (fun u v => isEdge st u v) l) : l.Nodup := by
  by_contra h
  obtain ⟨z, l1, l2, l3, rfl⟩ := not_nodup_decomp h
  have hsuff : List.Chain' (fun u v => isEdge st u v) (z :: (l2 ++ (z :: l3))) :=
    hch.suffix ⟨l1, rfl⟩
  have hpref : List.Chain' (fun u v => isEdge st u v) ((z :: l2) ++ [z]) :=
    hsuff.prefix ⟨l3, by simp⟩
  have hcyc : z ∈ downLevel st z (l2.length + 1) := by
    refine mem_downLevel_iff_chain.mpr ⟨(z :: l2) ++ [z], hpref, rfl, ?_, by simp⟩
    exact List.getLast?_concat _
  exact no_up_cycle hwf z (l2.length + 1) (Nat.succ_pos _)
    (downLevel_iff_upLevel.mp hcyc)

theorem topoLevel_mem_nodes {st : DagState} {d n : Nat}
    (hE : ∀ e ∈ st.edges, e.parent ∈ st.nodes ∧ e.child ∈ st.nodes)
    (h : n ∈ topoLevel st d) : n ∈ st.nodes := by
  obtain ⟨l, s, hch, hs, hh, hlast, hlen⟩ := mem_genLevel_iff_chain.mp h
  have hsn : s ∈ st.nodes := by
    obtain ⟨⟨e, he, hp⟩, _⟩ := mem_topoAnchor.mp hs
    exact hp ▸ (hE e he).1
  have hmem : ∀ z ∈ l, z ∈ st.nodes := by
    refine chain_mem_nodes ?_ hch hh hsn
    intro a b hab
    obtain ⟨e, he, _, hc⟩ := mem_childrenOf.mp hab
    exact hc ▸ (hE e he).2
  have hne : l ≠ [] := by
    intro hempty
    rw [hempty] at hlen
    simp at hlen
  have : l.getLast hne ∈ l := List.getLast_mem hne
  rw [List.getLast?_eq_getLast l hne] at hlast
  exact Option.some.inj hlast ▸ hmem _ this

/-- In a well-formed store all topological-sort CTE levels above the node
count are empty. -/
theorem topoLevel_lt_len {st : DagState} {md d n : Nat} (hwf : Wf st md)
    (h : n ∈ topoLevel st d) : d < st.nodes.length := by
  obtain ⟨l, s, hch, hs, hh, hlast, hlen⟩ := mem_genLevel_iff_chain.mp h
  have hch' : List.Chain' (fun u v => isEdge st u v) l :=
    hch.imp (fun a b hb => mem_childrenOf.mp hb)
  have hnd : l.Nodup := down_chain_nodup hwf hch'
  have hsn : s ∈ st.nodes := by
    obtain ⟨⟨e, he, hp⟩, _⟩ := mem_topoAnchor.mp hs
    exact hp ▸ (hwf.2.1 e he).1
  have hmem : ∀ z ∈ l, z ∈ st.nodes := by
    refine chain_mem_nodes ?_ hch' hh hsn
    intro a b hab
    obtain ⟨e, he, _, hc⟩ := hab
    exact hc ▸ (hwf.2.1 e he).2
  have := nodup_length_le hnd hmem
  omega

theorem topoLevel_succ_of_edge {st : DagState} {p c d : Nat}
    (he : isEdge st p c) (hp : p ∈ topoLevel st d) : c ∈ topoLevel st (d + 1) :=
  mem_genLevel_succ.mpr ⟨p, hp, mem_childrenOf.mpr he⟩

theorem parent_mem_upLevel_one {st : DagState} {p n : Nat} (h : isEdge st p n) :
    p ∈ upLevel st n 1 := by
  show p ∈ (([n].flatMap (parentsOf st)).dedup)
  rw [List.mem_dedup]
  simp only [List.flatMap_cons, List.flatMap_nil, List.append_nil]
  exact mem_parentsOf.mpr h

/-- Completeness: every node touching an edge occurs in the
topological-sort CTE. -/
theorem topo_complete {st : DagState} {md : Nat} (hwf : Wf st md) :
    ∀ n, (∃ e ∈ st.edges, e.parent = n ∨ e.child = n) →
      ∃ d, d ≤ md ∧ n ∈ topoLevel st d := by
  have hE := hwf.2.1
  suffices h : ∀ k n, (properUpSetB st n).toFinset.card ≤ k →
      (∃ e ∈ st.edges, e.parent = n ∨ e.child = n) →
      ∃ d, d ≤ md ∧ n ∈ topoLevel st d by
    intro n hn
    exact h _ n (Nat.le_refl _) hn
  intro k
  induction k with
  | zero =>
    intro n hcard htouch
    by_cases hin : ∃ e ∈ st.edges, e.child = n
    · exfalso
      obtain ⟨e, he, hc⟩ := hin
      have hpmem : e.parent ∈ properUpSetB st n := by
        apply mem_properUpSetB.mpr
        refine ⟨1, Nat.one_pos, ?_, parent_mem_upLevel_one ⟨e, he, rfl, hc⟩⟩
        have : e.parent ∈ st.nodes := (hE e he).1
        have := List.length_pos_of_mem this
        omega
      have : 0 < (properUpSetB st n).toFinset.card :=
        Finset.card_pos.mpr ⟨e.parent, List.mem_toFinset.mpr hpmem⟩
      omega
    · obtain ⟨e, he, hpc⟩ := htouch
      have hpar : e.parent = n := by
        rcases hpc with h' | h'
        · exact h'
        · exact absurd ⟨e, he, h'⟩ hin
      exact ⟨0, Nat.zero_le md, mem_topoAnchor.mpr ⟨⟨e, he, hpar⟩, hin⟩⟩
  | succ k ih =>
    intro n hcard htouch
    by_cases hin : ∃ e ∈ st.edges, e.child = n
    · obtain ⟨e, he, hc⟩ := hin
      have hpn : e.parent ∈ st.nodes := (hE e he).1
      have hnn : n ∈ st.nodes := hc ▸ (hE e he).2
      have hedge : isEdge st e.parent n := ⟨e, he, rfl, hc⟩
      have hup1 : e.parent ∈ upLevel st n 1 := parent_mem_upLevel_one hedge
      have hsubset : (properUpSetB st e.parent).toFinset ⊆ (properUpSetB st n).toFinset := by
        intro m hm
        rw [List.mem_toFinset] at hm ⊢
        obtain ⟨d, hd, hmem⟩ := (mem_properUpSetB_iff hwf hpn).mp hm
        exact (mem_properUpSetB_iff hwf hnn).mpr
          ⟨1 + d, by omega, upLevel_trans hup1 hmem⟩
      have hpmem : e.parent ∈ (properUpSetB st n).toFinset :=
        List.mem_toFinset.mpr
          ((mem_properUpSetB_iff hwf hnn).mpr ⟨1, Nat.one_pos, hup1⟩)
      have hpnot : e.parent ∉ (properUpSetB st e.parent).toFinset := by
        rw [List.mem_toFinset]
        intro hmm
        obtain ⟨d, hd, hm⟩ := (mem_properUpSetB_iff hwf hpn).mp hmm
        exact no_up_cycle hwf e.parent d hd hm
      have hcardlt :
          (properUpSetB st e.parent).toFinset.card < (properUpSetB st n).toFinset.card :=
        Finset.card_lt_card
          ((Finset.ssubset_iff_of_subset hsubset).mpr ⟨e.parent, hpmem, hpnot⟩)
      obtain ⟨dp, hdple, hdp⟩ := ih e.parent (by omega) ⟨e, he, Or.inl rfl⟩
      have hdplt : dp < st.nodes.length := topoLevel_lt_len hwf hdp
      have hmd := hwf.2.2.1
      exact ⟨dp + 1, by omega, topoLevel_succ_of_edge hedge hdp⟩
    · obtain ⟨e, he, hpc⟩ := htouch
      have hpar : e.parent = n := by
        rcases hpc with h' | h'
        · exact h'
        · exact absurd ⟨e, he, h'⟩ hin
      exact ⟨0, Nat.zero_le md, mem_topoAnchor.mpr ⟨⟨e, he, hpar⟩, hin⟩⟩

theorem mem_topoCtePks {st : DagState} {md n : Nat} :
    n ∈ topoCtePks st md ↔ ∃ d, d ≤ md ∧ n ∈ topoLevel st d := by
  rw [topoCtePks]
  simp only [List.mem_flatMap, List.mem_range, mem_sortNat, List.mem_filter,
    List.mem_dedup, decide_eq_true_eq]
  constructor
  · rintro ⟨d, hd, hmem, _⟩
    exact ⟨d, by omega, hmem⟩
  · rintro ⟨d, hd, hmem⟩
    obtain ⟨dm, h1, h2, h3, h4⟩ :=
      @exists_greatest (fun d' => n ∈ topoLevel st d') (fun _ => inferInstance) md d hmem hd
    refine ⟨dm, by omega, h2, h2, ?_⟩
    intro d' hlt hgt
    exact h4 d' hgt (by omega)

theorem indexOf_append_right {a : Nat} :
    ∀ {l1 l2 : List Nat}, a ∉ l1 →
      (l1 ++ l2).indexOf a = l1.length + l2.indexOf a := by
  intro l1
  induction l1 with
  | nil =>
    intro l2 _
    simp
  | cons b t ih =>
    intro l2 h
    have hba : b ≠ a := by
      intro hba
      exact h (hba ▸ List.mem_cons_self b t)
    rw [List.cons_append, List.indexOf_cons_ne _ hba,
      ih (fun hm => h (List.mem_cons_of_mem b hm))]
    simp only [List.length_cons]
    omega

/-- Disjoint nodup groups assemble into a nodup flat list. -/
theorem nodup_flatMap_disjoint {g : Nat → List Nat} :
    ∀ {L : List Nat}, L.Nodup → (∀ i ∈ L, (g i).Nodup) →
      (∀ i ∈ L, ∀ j ∈ L, i ≠ j → ∀ x, x ∈ g i → x ∉ g j) →
      (L.flatMap g).Nodup := by
  intro L
  induction L with
  | nil =>
    intro _ _ _
    simp
  | cons i t ih =>
    intro hnd hgs hdis
    rw [List.nodup_cons] at hnd
    rw [List.flatMap_cons]
    refine (hgs i (List.mem_cons_self i t)).append
      (ih hnd.2 (fun j hj => hgs j (List.mem_cons_of_mem i hj)) ?_) ?_
    · intro i' hi' j' hj' hne x hx
      exact hdis i' (List.mem_cons_of_mem i hi') j' (List.mem_cons_of_mem i hj') hne x hx
    · intro x hx hmem
      rw [List.mem_flatMap] at hmem
      obtain ⟨j, hj, hxj⟩ := hmem
      have hij : i ≠ j := fun hij => hnd.1 (hij ▸ hj)
      exact hdis i (List.mem_cons_self i t) j (List.mem_cons_of_mem i hj) hij x hx hxj

/-! ### Claim C5 -/

/-- C5: for every well-formed store, `topological_sort()` places the
parent of every edge strictly before its child, and every island node is
present in the output. -/
theorem C5_topological_sort_order_and_islands (st : DagState) (md : Nat)
    (hwf : Wf st md) :
    (∀ e ∈ st.edges,
        (topologicalSortPks st md).indexOf e.parent <
          (topologicalSortPks st md).indexOf e.child) ∧
      ∀ n ∈ st.nodes, isIslandPred st n → n ∈ topologicalSortPks st md := by
  have hE := hwf.2.1
  have hmd := hwf.2.2.1
  set g : Nat → List Nat := fun d =>
    sortNat (((topoLevel st d).dedup).filter
      (fun n => decide (inMaxGroup (topoLevel st) md d n))) with hg
  have hcte : topoCtePks st md = (List.range (md + 1)).flatMap g := rfl
  have hgmem : ∀ d n, n ∈ g d ↔ inMaxGroup (topoLevel st) md d n := by
    intro d n
    rw [hg]
    simp only [mem_sortNat, List.mem_filter, List.mem_dedup, decide_eq_true_eq]
    constructor
    · rintro ⟨_, h⟩
      exact h
    · intro h
      exact ⟨h.1, h⟩
  have hdis : ∀ i j, i ≠ j → ∀ x, x ∈ g i → x ∉ g j := by
    intro i j hne x hxi hxj
    obtain ⟨hmi, hmaxi⟩ := (hgmem i x).mp hxi
    obtain ⟨hmj, hmaxj⟩ := (hgmem j x).mp hxj
    rcases Nat.lt_or_ge i j with h | h
    · have hj : j < md + 1 := by
        have := topoLevel_lt_len hwf hmj
        omega
      exact hmaxi j hj h hmj
    · have hij : j < i := by omega
      have hi : i < md + 1 := by
        have := topoLevel_lt_len hwf hmi
        omega
      exact hmaxj i hi hij hmi
  have hcnd : (topoCtePks st md).Nodup := by
    rw [hcte]
    refine nodup_flatMap_disjoint (List.nodup_range _) ?_ ?_
    · intro i _
      exact ((sortNat_perm _).nodup_iff).mpr ((List.nodup_dedup (topoLevel st i)).filter _)
    · intro i _ j _ hne x
      exact hdis i j hne x
  have hcsub : ∀ x ∈ topoCtePks st md, x ∈ st.nodes := by
    intro x hx
    obtain ⟨d, _, hmem⟩ := mem_topoCtePks.mp hx
    exact topoLevel_mem_nodes hE hmem
  set isl := sortNat (dedupFirst (st.nodes.filter
    (fun n => decide (n ∉ topoCtePks st md)))) with hisl
  have hislnd : isl.Nodup := (sortNat_perm _).nodup_iff.mpr nodup_dedupFirst
  have hislsub : ∀ x ∈ isl, x ∈ st.nodes := by
    intro x hx
    rw [hisl, mem_sortNat, mem_dedupFirst, List.mem_filter] at hx
    exact hx.1
  have hislnot : ∀ x ∈ isl, x ∉ topoCtePks st md := by
    intro x hx
    rw [hisl, mem_sortNat, mem_dedupFirst, List.mem_filter, decide_eq_true_eq] at hx
    exact hx.2
  have hres : topologicalSortPks st md = isl ++ topoCtePks st md := by
    calc topologicalSortPks st md = querysetPks st (isl ++ topoCtePks st md) := rfl
      _ = isl ++ topoCtePks st md := by
        refine querysetPks_eq_self
          (hislnd.append hcnd (List.disjoint_left.mpr (fun a ha => hislnot a ha))) ?_
        intro x hx
        rcases List.mem_append.mp hx with hx' | hx'
        · exact hislsub x hx'
        · exact hcsub x hx'
  constructor
  · intro e he
    have hedge : isEdge st e.parent e.child := ⟨e, he, rfl, rfl⟩
    obtain ⟨d0, hd0le, hP0⟩ := topo_complete hwf e.parent ⟨e, he, Or.inl rfl⟩
    obtain ⟨dP, hdPle, hPmem, _, hPmax⟩ :=
      @exists_greatest (fun d' => e.parent ∈ topoLevel st d') (fun _ => inferInstance)
        md d0 hP0 hd0le
    have hdPlt : dP < st.nodes.length := topoLevel_lt_len hwf hPmem
    have hCd : e.child ∈ topoLevel st (dP + 1) := topoLevel_succ_of_edge hedge hPmem
    have hPg : e.parent ∈ g dP :=
      (hgmem dP e.parent).mpr ⟨hPmem, fun d' hd' hgt => hPmax d' hgt (by omega)⟩
    have hCnotpre : ∀ d', d' ≤ dP → e.child ∉ g d' := by
      intro d' hd' hmem
      obtain ⟨_, hmax⟩ := (hgmem d' e.child).mp hmem
      exact hmax (dP + 1) (by omega) (by omega) hCd
    have hsplit : topoCtePks st md
        = (List.range (dP + 1)).flatMap g
          ++ ((List.range (md - dP)).map (fun x => (dP + 1) + x)).flatMap g := by
      rw [hcte, show md + 1 = (dP + 1) + (md - dP) from by omega, List.range_add,
        List.flatMap_append]
    have hPpre : e.parent ∈ (List.range (dP + 1)).flatMap g :=
      List.mem_flatMap.mpr ⟨dP, List.mem_range.mpr (by omega), hPg⟩
    have hCpre : e.child ∉ (List.range (dP + 1)).flatMap g := by
      intro hmem
      obtain ⟨d', hd', hmemg⟩ := List.mem_flatMap.mp hmem
      rw [List.mem_range] at hd'
      exact hCnotpre d' (by omega) hmemg
    have hPnotisl : e.parent ∉ isl := by
      intro hmem
      exact hislnot _ hmem (mem_topoCtePks.mpr ⟨dP, by omega, hPmem⟩)
    have hCnotisl : e.child ∉ isl := by
      intro hmem
      exact hislnot _ hmem (mem_topoCtePks.mpr ⟨dP + 1, by omega, hCd⟩)
    rw [hres, indexOf_append_right hPnotisl, indexOf_append_right hCnotisl]
    have hidxP : (topoCtePks st md).indexOf e.parent
        < ((List.range (dP + 1)).flatMap g).length := by
      rw [hsplit, List.indexOf_append_of_mem hPpre]
      exact List.indexOf_lt_length.mpr hPpre
    have hidxC : ((List.range (dP + 1)).flatMap g).length
        ≤ (topoCtePks st md).indexOf e.child := by
      rw [hsplit, indexOf_append_right hCpre]
      omega
    omega
  · intro n hn hisland
    obtain ⟨hnoc, hnop⟩ := hisland
    have hnot : n ∉ topoCtePks st md := by
      intro hmem
      obtain ⟨d, _, hmem'⟩ := mem_topoCtePks.mp hmem
      match d, hmem' with
      | 0, hmem' =>
        obtain ⟨⟨e, he, hp⟩, _⟩ := mem_topoAnchor.mp hmem'
        exact hnoc ⟨e, he, hp⟩
      | d + 1, hmem' =>
        obtain ⟨m, _, hstep⟩ := mem_genLevel_succ.mp hmem'
        obtain ⟨e, he, _, hc⟩ := mem_childrenOf.mp hstep
        exact hnop ⟨e, he, hc⟩
    rw [hres, List.mem_append]
    left
    rw [hisl, mem_sortNat, mem_dedupFirst, List.mem_filter]
    exact ⟨hn, by simpa using hnot⟩

/-- Witness for C5 at a chain with an island. -/
theorem C5_topological_sort_order_and_islands_witness :
    (∀ e ∈ stChainAndIsland.edges,
        (topologicalSortPks stChainAndIsland defaultMaxDepth).indexOf e.parent <
          (topologicalSortPks stChainAndIsland defaultMaxDepth).indexOf e.child) ∧
      ∀ n ∈ stChainAndIsland.nodes, isIslandPred stChainAndIsland n →
        n ∈ topologicalSortPks stChainAndIsland defaultMaxDepth :=
  C5_topological_sort_order_and_islands stChainAndIsland defaultMaxDepth (by decide)

/-! ### Connected graph infrastructure -/

theorem undirStep_symm {st : DagState} {a b : Nat} (h : undirStep st a b) :
    undirStep st b a := h.symm

theorem undirReach_refl {st : DagState} (x : Nat) : undirReach st x x :=
  ⟨[x], List.chain'_singleton x, rfl, rfl⟩

theorem undirReach_symm {st : DagState} {x y : Nat} (h : undirReach st x y) :
    undirReach st y x := by
  obtain ⟨l, hch, hh, hl⟩ := h
  refine ⟨l.reverse, ?_, ?_, ?_⟩
  · rw [List.chain'_reverse]
    exact hch.imp (fun a b hab => undirStep_symm hab)
  · rw [List.head?_reverse]
    exact hl
  · rw [List.getLast?_reverse]
    exact hh

theorem undirReach_trans {st : DagState} {x y z : Nat} (h₁ : undirReach st x y)
    (h₂ : undirReach st y z) : undirReach st x z := by
  obtain ⟨l₁, hc₁, hh₁, hl₁⟩ := h₁
  obtain ⟨l₂, hc₂, hh₂, hl₂⟩ := h₂
  obtain ⟨hch, hh, hlast, _⟩ := chain_glue hc₁ hc₂ hl₁ hh₂
  exact ⟨l₁ ++ l₂.tail, hch, hh.trans hh₁, hlast.trans hl₂⟩

theorem undirStep_mem_nodes {st : DagState} {a b : Nat}
    (hE : ∀ e ∈ st.edges, e.parent ∈ st.nodes ∧ e.child ∈ st.nodes)
    (h : undirStep st a b) : b ∈ st.nodes := by
  rcases h with ⟨e, he, _, hc⟩ | ⟨e, he, hp, _⟩
  · exact hc ▸ (hE e he).2
  · exact hp ▸ (hE e he).1

theorem connLevel_inv {st : DagState} {start md : Nat} :
    ∀ k, ∀ r ∈ connLevel st start md k,
      List.Chain' (undirStep st) r.path ∧ r.path.Nodup ∧
        r.path.head? = some start ∧ r.path.getLast? = some r.node ∧
        r.path.length = k + 1 ∧ (k = 0 ∨ r.path.length ≤ md) := by
  intro k
  induction k with
  | zero =>
    intro r hr
    rw [connLevel, List.mem_singleton] at hr
    subst hr
    exact ⟨List.chain'_singleton _, List.nodup_singleton _, rfl, rfl, rfl, Or.inl rfl⟩
  | succ k ih =>
    intro r hr
    rw [connLevel, List.mem_flatMap] at hr
    obtain ⟨r', hr', hmem⟩ := hr
    rw [List.mem_filterMap] at hmem
    obtain ⟨e, he, heq⟩ := hmem
    rw [List.mem_filter, Bool.or_eq_true, beq_iff_eq, beq_iff_eq] at he
    obtain ⟨heedge, hside⟩ := he
    obtain ⟨ihc, ihn, ihh, ihl, ihlen, _⟩ := ih r' hr'
    have hpne : r'.path ≠ [] := by
      intro hempty
      rw [hempty] at ihh
      exact Option.noConfusion ihh
    have hmain : ∀ nxt, undirStep st r'.node nxt → nxt ∉ r'.path → r'.path.length < md →
        List.Chain' (undirStep st) (r'.path ++ [nxt]) ∧ (r'.path ++ [nxt]).Nodup ∧
          (r'.path ++ [nxt]).head? = some start ∧
          (r'.path ++ [nxt]).getLast? = some nxt ∧
          (r'.path ++ [nxt]).length = k + 1 + 1 ∧
          (k + 1 = 0 ∨ (r'.path ++ [nxt]).length ≤ md) := by
      intro nxt hstep hnot hlt
      refine ⟨?_, ?_, ?_, List.getLast?_concat _, ?_, Or.inr ?_⟩
      · rw [List.chain'_append]
        refine ⟨ihc, List.chain'_singleton _, ?_⟩
        intro u hu v hv
        rw [ihl] at hu
        simp only [Option.mem_def, Option.some.injEq] at hu
        simp only [List.head?_cons, Option.mem_def, Option.some.injEq] at hv
        rw [← hu, ← hv]
        exact hstep
      · exact ihn.append (List.nodup_singleton _) (List.disjoint_singleton.mpr hnot)
      · rw [List.head?_append, ihh]
        rfl
      · simp only [List.length_append, List.length_singleton]
        omega
      · simp only [List.length_append, List.length_singleton]
        omega
    simp only at heq
    split at heq
    · rename_i hcn
      rw [beq_iff_eq] at hcn
      split at heq
      · rename_i hguard
        rw [Bool.and_eq_true, Bool.not_eq_true', decide_eq_true_eq] at hguard
        obtain rfl : r = ⟨e.parent, r'.path ++ [e.parent]⟩ := (Option.some.inj heq).symm
        exact hmain e.parent (Or.inr ⟨e, heedge, rfl, hcn⟩)
          (by simpa using hguard.1) hguard.2
      · exact Option.noConfusion heq
    · rename_i hcn
      split at heq
      · rename_i hguard
        rw [Bool.and_eq_true, Bool.not_eq_true', decide_eq_true_eq] at hguard
        have hp : e.parent = r'.node := by
          rcases hside with h | h
          · exact h
          · exact absurd (beq_iff_eq.mpr h) hcn
        obtain rfl : r = ⟨e.child, r'.path ++ [e.child]⟩ := (Option.some.inj heq).symm
        exact hmain e.child (Or.inl ⟨e, heedge, hp, rfl⟩)
          (by simpa using hguard.1) hguard.2
      · exact Option.noConfusion heq

theorem connLevel_complete {st : DagState} {start md : Nat} :
    ∀ (n : Nat) (l : List Nat) (x : Nat), l.length = n + 1 →
      List.Chain' (undirStep st) l → l.Nodup → l.head? = some start →
      l.getLast? = some x → (n = 0 ∨ n + 1 ≤ md) →
      (⟨x, l⟩ : ConnRow) ∈ connLevel st start md n := by
  intro n
  induction n with
  | zero =>
    intro l x hlen _ _ hh hl _
    match l, hlen with
    | [y], _ =>
      simp only [List.head?_cons, Option.some.injEq] at hh
      simp only [List.getLast?_singleton, Option.some.injEq] at hl
      rw [connLevel, List.mem_singleton]
      rw [← hh, ← hl]
  | succ n ih =>
    intro l x hlen hch hnd hh hl hbound
    have hne : l ≠ [] := by
      intro hempty
      rw [hempty] at hlen
      simp at hlen
    have hlast' : l.getLast hne = x := by
      rw [List.getLast?_eq_getLast l hne] at hl
      exact Option.some.inj hl
    have hdecomp : l.dropLast ++ [x] = l := by
      rw [← hlast']
      exact List.dropLast_append_getLast hne
    have hlen' : l.dropLast.length = n + 1 := by
      rw [List.length_dropLast, hlen]
      omega
    have hne' : l.dropLast ≠ [] := by
      intro hempty
      rw [hempty] at hlen'
      simp at hlen'
    rw [← hdecomp, List.chain'_append] at hch
    obtain ⟨hch', _, hjunc⟩ := hch
    rw [← hdecomp] at hnd
    have hnd' : l.dropLast.Nodup := (List.nodup_append.mp hnd).1
    have hxnot : x ∉ l.dropLast := by
      intro hmem
      exact (List.nodup_append.mp hnd).2.2 hmem (List.mem_singleton.mpr rfl)
    have hh' : l.dropLast.head? = some start := by
      rw [← hdecomp, List.head?_append, List.head?_eq_head hne'] at hh
      rw [List.head?_eq_head hne']
      simpa using hh
    set m := l.dropLast.getLast hne' with hm
    have hstep : undirStep st m x :=
      hjunc m (by rw [List.getLast?_eq_getLast _ hne']; rfl) x rfl
    have hmd : n + 2 ≤ md := by
      rcases hbound with h | h
      · omega
      · rw [hlen] at *
        omega
    have hrow : (⟨m, l.dropLast⟩ : ConnRow) ∈ connLevel st start md n := by
      refine ih l.dropLast m hlen' hch' hnd' hh' (List.getLast?_eq_getLast _ hne') ?_
      rcases Nat.eq_zero_or_pos n with rfl | hpos
      · exact Or.inl rfl
      · exact Or.inr (by omega)
    rw [connLevel, List.mem_flatMap]
    refine ⟨⟨m, l.dropLast⟩, hrow, ?_⟩
    rw [List.mem_filterMap]
    -- pick the witnessing edge of the undirected step
    rcases hstep with ⟨e, he, hp, hc⟩ | ⟨e, he, hp, hc⟩
    · -- isEdge m x : e.parent = m, e.child = x
      refine ⟨e, ?_, ?_⟩
      · rw [List.mem_filter, Bool.or_eq_true, beq_iff_eq, beq_iff_eq]
        exact ⟨he, Or.inl hp⟩
      · simp only
        have hxm : x ≠ m := by
          intro hxm
          apply hxnot
          rw [hxm, hm]
          exact List.getLast_mem hne'
        have hcond : (e.child == (⟨m, l.dropLast⟩ : ConnRow).node) = false := by
          simp only
          rw [beq_eq_false_iff_ne, hc]
          exact hxm
        rw [hcond]
        simp only [Bool.false_eq_true, if_false]
        have hguard : (!(l.dropLast.contains e.child) && decide (l.dropLast.length < md))
            = true := by
          rw [Bool.and_eq_true, Bool.not_eq_true', decide_eq_true_eq]
          constructor
          · rw [← Bool.not_eq_true]
            simpa using hc ▸ hxnot
          · omega
        rw [hguard]
        simp only [if_true]
        rw [hc, hdecomp]
    · -- isEdge x m : e.parent = x, e.child = m
      refine ⟨e, ?_, ?_⟩
      · rw [List.mem_filter, Bool.or_eq_true, beq_iff_eq, beq_iff_eq]
        exact ⟨he, Or.inr hc⟩
      · simp only
        have hcond : (e.child == (⟨m, l.dropLast⟩ : ConnRow).node) = true := by
          simp only
          rw [beq_iff_eq]
          exact hc
        rw [hcond]
        simp only [if_true]
        have hguard : (!(l.dropLast.contains e.parent) && decide (l.dropLast.length < md))
            = true := by
          rw [Bool.and_eq_true, Bool.not_eq_true', decide_eq_true_eq]
          constructor
          · rw [← Bool.not_eq_true]
            simpa using hp ▸ hxnot
          · omega
        rw [hguard]
        simp only [if_true]
        rw [hp, hdecomp]

theorem mem_connPks {st : DagState} {start md x : Nat} :
    x ∈ connPks st start md ↔
      ∃ l, List.Chain' (undirStep st) l ∧ l.Nodup ∧ l.head? = some start ∧
        l.getLast? = some x ∧ (l.length = 1 ∨ l.length ≤ md) := by
  rw [connPks]
  simp only [List.mem_dedup, List.mem_flatMap, List.mem_map, List.mem_range]
  constructor
  · rintro ⟨k, hk, r, hr, rfl⟩
    obtain ⟨hc, hn, hh, hl, hlen, hbound⟩ := connLevel_inv k r hr
    refine ⟨r.path, hc, hn, hh, hl, ?_⟩
    rcases hbound with h | h
    · left
      rw [hlen, h]
    · right
      exact h
  · rintro ⟨l, hc, hn, hh, hl, hbound⟩
    have hne : l ≠ [] := by
      intro h
      rw [h] at hh
      exact Option.noConfusion hh
    have hpos : 0 < l.length := List.length_pos.mpr hne
    refine ⟨l.length - 1, by omega, ⟨x, l⟩, ?_, rfl⟩
    refine connLevel_complete (l.length - 1) l x (by omega) hc hn hh hl ?_
    rcases hbound with h | h
    · left
      omega
    · right
      omega

theorem mem_connPks_iff_undirReach {st : DagState} {md start x : Nat}
    (hwf : Wf st md) (hstart : start ∈ st.nodes) :
    x ∈ connPks st start md ↔ undirReach st start x := by
  rw [mem_connPks]
  constructor
  · rintro ⟨l, hc, _, hh, hl, _⟩
    exact ⟨l, hc, hh, hl⟩
  · rintro ⟨l, hc, hh, hl⟩
    obtain ⟨l', hc', hnd', hh', hl', _⟩ := chain_shorten l hc
    have hsub : ∀ z ∈ l', z ∈ st.nodes :=
      chain_mem_nodes (fun a b hab => undirStep_mem_nodes hwf.2.1 hab) hc'
        (hh'.trans hh) hstart
    have hlenle : l'.length ≤ st.nodes.length := nodup_length_le hnd' hsub
    have hmd := hwf.2.2.1
    exact ⟨l', hc', hnd', hh'.trans hh, hl'.trans hl, Or.inr (by omega)⟩

theorem connPks_mem_nodes {st : DagState} {md start x : Nat} (hwf : Wf st md)
    (hstart : start ∈ st.nodes) (h : x ∈ connPks st start md) : x ∈ st.nodes := by
  obtain ⟨l, hc, _, hh, hl, _⟩ := mem_connPks.mp h
  have hsub : ∀ z ∈ l, z ∈ st.nodes :=
    chain_mem_nodes (fun a b hab => undirStep_mem_nodes hwf.2.1 hab) hc hh hstart
  have hne : l ≠ [] := by
    intro hempty
    rw [hempty] at hh
    exact Option.noConfusion hh
  rw [List.getLast?_eq_getLast l hne] at hl
  exact Option.some.inj hl ▸ hsub _ (List.getLast_mem hne)

theorem mem_connectedGraphFacade {st : DagState} {md start x : Nat}
    (hwf : Wf st md) (hstart : start ∈ st.nodes) :
    x ∈ connectedGraphFacade st start md ↔ undirReach st start x := by
  rw [connectedGraphFacade, mem_querysetPks]
  constructor
  · rintro ⟨h1, _⟩
    exact (mem_connPks_iff_undirReach hwf hstart).mp h1
  · intro h
    have h1 := (mem_connPks_iff_undirReach hwf hstart).mpr h
    exact ⟨h1, connPks_mem_nodes hwf hstart h1⟩

/-- Invariant of the `connected_components` loop: relative to a
remaining pk set that is reachability-closed inside the node table,
every remaining pk lands in exactly one returned component, already
processed pks land in none, and no component is empty. -/
theorem connectedComponentsLoop_spec {st : DagState} {md : Nat} (hwf : Wf st md) :
    ∀ N rem, rem.length ≤ N → (∀ x ∈ rem, x ∈ st.nodes) →
      (∀ x ∈ rem, ∀ y ∈ st.nodes, undirReach st x y → y ∈ rem) →
      ((∀ n ∈ rem,
          (connectedComponentsLoop st md rem).countP (fun c => decide (n ∈ c)) = 1) ∧
        (∀ n ∈ st.nodes, n ∉ rem →
          (connectedComponentsLoop st md rem).countP (fun c => decide (n ∈ c)) = 0) ∧
        ∀ c ∈ connectedComponentsLoop st md rem, c ≠ []) := by
  intro N
  induction N with
  | zero =>
    intro rem hlen _ _
    have : rem = [] := List.length_eq_zero.mp (Nat.le_zero.mp hlen)
    subst this
    rw [connectedComponentsLoop]
    refine ⟨fun n hn => absurd hn (List.not_mem_nil n), fun n _ _ => rfl, ?_⟩
    intro c hc
    exact absurd hc (List.not_mem_nil c)
  | succ N ihN =>
    intro rem hlen hsub hclosed
    match rem with
    | [] =>
      rw [connectedComponentsLoop]
      refine ⟨fun n hn => absurd hn (List.not_mem_nil n), fun n _ _ => rfl, ?_⟩
      intro c hc
      exact absurd hc (List.not_mem_nil c)
    | start :: rest =>
      rw [connectedComponentsLoop]
      have hstartnodes : start ∈ st.nodes := hsub start (List.mem_cons_self start rest)
      have hcompPks_reach : ∀ y, y ∈ start :: connectedGraphFacade st start md →
          undirReach st start y := by
        intro y hy
        rcases List.mem_cons.mp hy with rfl | hy'
        · exact undirReach_refl y
        · exact (mem_connectedGraphFacade hwf hstartnodes).mp hy'
      have hreach_compPks : ∀ y, undirReach st start y →
          y ∈ start :: connectedGraphFacade st start md := by
        intro y hy
        exact List.mem_cons_of_mem start ((mem_connectedGraphFacade hwf hstartnodes).mpr hy)
      have hcomp : ∀ y,
          y ∈ st.nodes.filter
            (fun n => decide (n ∈ start :: connectedGraphFacade st start md)) ↔
          y ∈ st.nodes ∧ undirReach st start y := by
        intro y
        rw [List.mem_filter, decide_eq_true_eq]
        constructor
        · rintro ⟨h1, h2⟩
          exact ⟨h1, hcompPks_reach y h2⟩
        · rintro ⟨h1, h2⟩
          exact ⟨h1, hreach_compPks y h2⟩
      have hremlen : (rest.filter
          (fun n => decide (n ∉ start :: connectedGraphFacade st start md))).length ≤ N := by
        have h1 := List.length_filter_le
          (fun n => decide (n ∉ start :: connectedGraphFacade st start md)) rest
        simp only [List.length_cons] at hlen
        omega
      have hsub' : ∀ x ∈ rest.filter
          (fun n => decide (n ∉ start :: connectedGraphFacade st start md)), x ∈ st.nodes := by
        intro x hx
        rw [List.mem_filter] at hx
        exact hsub x (List.mem_cons_of_mem start hx.1)
      have hclosed' : ∀ x ∈ rest.filter
          (fun n => decide (n ∉ start :: connectedGraphFacade st start md)),
          ∀ y ∈ st.nodes, undirReach st x y →
            y ∈ rest.filter
              (fun n => decide (n ∉ start :: connectedGraphFacade st start md)) := by
        intro x hx y hy hreach
        rw [List.mem_filter, decide_eq_true_eq] at hx
        obtain ⟨hxrest, hxnot⟩ := hx
        have hyrem : y ∈ start :: rest :=
          hclosed x (List.mem_cons_of_mem start hxrest) y hy hreach
        have hynot : y ∉ start :: connectedGraphFacade st start md := by
          intro hymem
          exact hxnot (hreach_compPks x
            (undirReach_trans (hcompPks_reach y hymem) (undirReach_symm hreach)))
        have hyrest : y ∈ rest := by
          rcases List.mem_cons.mp hyrem with rfl | h
          · exact absurd (List.mem_cons_self y _) hynot
          · exact h
        rw [List.mem_filter, decide_eq_true_eq]
        exact ⟨hyrest, hynot⟩
      obtain ⟨ih1, ih2, ih3⟩ := ihN _ hremlen hsub' hclosed'
      refine ⟨?_, ?_, ?_⟩
      · intro n hn
        rw [List.countP_cons]
        by_cases hreach : undirReach st start n
        · have hncomp : n ∈ st.nodes.filter
              (fun m => decide (m ∈ start :: connectedGraphFacade st start md)) :=
            (hcomp n).mpr ⟨hsub n hn, hreach⟩
          have hnrem : n ∉ rest.filter
              (fun m => decide (m ∉ start :: connectedGraphFacade st start md)) := by
            intro hmem
            rw [List.mem_filter, decide_eq_true_eq] at hmem
            exact hmem.2 (hreach_compPks n hreach)
          rw [ih2 n (hsub n hn) hnrem]
          simp only [decide_eq_true_eq]
          rw [if_pos hncomp]
        · have hncomp : n ∉ st.nodes.filter
              (fun m => decide (m ∈ start :: connectedGraphFacade st start md)) := by
            intro hmem
            exact hreach ((hcomp n).mp hmem).2
          have hnrest : n ∈ rest := by
            rcases List.mem_cons.mp hn with rfl | h
            · exact absurd (undirReach_refl n) hreach
            · exact h
          have hnrem : n ∈ rest.filter
              (fun m => decide (m ∉ start :: connectedGraphFacade st start md)) := by
            rw [List.mem_filter, decide_eq_true_eq]
            refine ⟨hnrest, fun hmem => hreach (hcompPks_reach n hmem)⟩
          rw [ih1 n hnrem]
          simp only [decide_eq_true_eq]
          rw [if_neg hncomp]
      · intro n hnodes hnotrem
        rw [List.countP_cons]
        have hncomp : n ∉ st.nodes.filter
            (fun m => decide (m ∈ start :: connectedGraphFacade st start md)) := by
          intro hmem
          obtain ⟨_, hreach⟩ := (hcomp n).mp hmem
          exact hnotrem (hclosed start (List.mem_cons_self start rest) n hnodes hreach)
        have hnrem : n ∉ rest.filter
            (fun m => decide (m ∉ start :: connectedGraphFacade st start md)) := by
          intro hmem
          rw [List.mem_filter] at hmem
          exact hnotrem (List.mem_cons_of_mem start hmem.1)
        rw [ih2 n hnodes hnrem]
        simp only [decide_eq_true_eq]
        rw [if_neg hncomp]
      · intro c hc
        rcases List.mem_cons.mp hc with rfl | hc'
        · have : start ∈ st.nodes.filter
              (fun m => decide (m ∈ start :: connectedGraphFacade st start md)) :=
            (hcomp start).mpr ⟨hstartnodes, undirReach_refl start⟩
          exact List.ne_nil_of_mem this
        · exact ih3 c hc'

/-! ### Claim C10 -/

/-- C10: for every well-formed store, `connected_components()` partitions
the node table: every node appears in exactly one returned component and
no returned component is empty. -/
theorem C10_connected_components_partition (st : DagState) (md : Nat)
    (hwf : Wf st md) :
    (∀ n ∈ st.nodes,
        (connectedComponents st md).countP (fun c => decide (n ∈ c)) = 1) ∧
      ∀ c ∈ connectedComponents st md, c ≠ [] := by
  have hspec := connectedComponentsLoop_spec hwf (dedupFirst st.nodes).length
    (dedupFirst st.nodes) (Nat.le_refl _)
    (fun x hx => mem_dedupFirst.mp hx)
    (fun x _ y hy _ => mem_dedupFirst.mpr hy)
  obtain ⟨h1, _, h3⟩ := hspec
  exact ⟨fun n hn => h1 n (mem_dedupFirst.mpr hn), h3⟩

/-- Witness for C10 at a chain with an island. -/
theorem C10_connected_components_partition_witness :
    (∀ n ∈ stChainAndIsland.nodes,
        (connectedComponents stChainAndIsland defaultMaxDepth).countP
          (fun c => decide (n ∈ c)) = 1) ∧
      ∀ c ∈ connectedComponents stChainAndIsland defaultMaxDepth, c ≠ [] :=
  C10_connected_components_partition stChainAndIsland defaultMaxDepth (by decide)

/-! ### Claim C1 -/

/-- C1: the spec claims `duplicate_edge_checker(parent, child)` rejects a
save exactly when an edge with that exact `(parent, child)` pair already
exists, so that with the chain 1 → 2 → 3 and no direct edge (1, 3), the
save of (1, 3) with `allow_duplicate_edges=False` succeeds.  The code
instead tests `child in parent.self_and_descendants()` — reachability —
so it rejects that save even though no exact duplicate exists.  This
theorem evaluates the embedded `Edge.save` at the failing input. -/
theorem C1_duplicate_checker_rejects_indirect_descendant :
    edgeSave stChain3 ⟨3, 1, 3, 1⟩ false false = (stChain3, some SaveErr.duplicate) ∧
      ¬isEdge stChain3 1 3 := by
  constructor
  · rfl
  · decide

/-! ### Claim C3 -/

/-- C3: in any store containing a chain a → b → c, saving a new edge
(c, a) with the circular check enabled raises the circular-checker
ValidationError, and saving the self-loop (b, b) raises as well; in both
cases the edge store is returned unchanged. -/
theorem C3_circular_checker_rejects_cycle_and_self_loop
    (st : DagState) (a b c i₁ i₂ : Nat) (w₁ w₂ : Int) (dup : Bool)
    (hab : isEdge st a b) (hbc : isEdge st b c)
    (ha : a ∈ st.nodes) (hb : b ∈ st.nodes) :
    edgeSave st ⟨i₁, c, a, w₁⟩ false dup = (st, some SaveErr.cyclic) ∧
      edgeSave st ⟨i₂, b, b, w₂⟩ false dup = (st, some SaveErr.cyclic) := by
  have hchain : List.Chain' (fun u v => isEdge st v u) [c, b, a] := by
    rw [List.chain'_cons, List.chain'_cons]
    exact ⟨hbc, hab, List.chain'_singleton a⟩
  have hup : a ∈ upLevel st c 2 :=
    mem_upLevel_iff_chain.mpr ⟨[c, b, a], hchain, rfl, rfl, rfl⟩
  have hraise₁ : circularCheckerRaises st c a := by
    rw [circularCheckerRaises, mem_querysetPks, mem_selfAndAncestorsPks]
    exact ⟨Or.inr ⟨2, Nat.zero_lt_succ 1, by decide, hup⟩, ha⟩
  have hraise₂ : circularCheckerRaises st b b := by
    rw [circularCheckerRaises, mem_querysetPks, mem_selfAndAncestorsPks]
    exact ⟨Or.inl rfl, hb⟩
  constructor
  · rw [edgeSave, if_pos ⟨by simp, hraise₁⟩]
  · rw [edgeSave, if_pos ⟨by simp, hraise₂⟩]

/-- Witness for C3 at the concrete chain 1 → 2 → 3. -/
theorem C3_circular_checker_rejects_cycle_and_self_loop_witness :
    edgeSave stChain3 ⟨9, 3, 1, 1⟩ false true = (stChain3, some SaveErr.cyclic) ∧
      edgeSave stChain3 ⟨9, 2, 2, 1⟩ false true = (stChain3, some SaveErr.cyclic) :=
  C3_circular_checker_rejects_cycle_and_self_loop stChain3 1 2 3 9 9 1 1 true
    (by decide) (by decide) (by decide) (by decide)

/-! ### Claim C9 -/

/-- C9: for an island node (no parents and no children), `is_root` and
`is_leaf` both return False, while `roots()` and `leaves()` each return
exactly the node itself. -/
theorem C9_island_root_leaf (st : DagState) (n md : Nat)
    (hn : n ∈ st.nodes) (hisl : isIslandPred st n) :
    ¬isRootPred st n ∧ ¬isLeafPred st n ∧
      rootsFacade st n md = [n] ∧ leavesFacade st n md = [n] := by
  obtain ⟨hnoChild, hnoParent⟩ := hisl
  have hparents : parentsOf st n = [] := by
    rw [parentsOf, List.map_eq_nil_iff, List.filter_eq_nil_iff]
    intro e he hc
    exact hnoParent ⟨e, he, by simpa using hc⟩
  have hchildren : childrenOf st n = [] := by
    rw [childrenOf, List.map_eq_nil_iff, List.filter_eq_nil_iff]
    intro e he hp
    exact hnoChild ⟨e, he, by simpa using hp⟩
  have hanc : ancestorPks st n md = [] := by
    rw [List.eq_nil_iff_forall_not_mem]
    intro m hm
    obtain ⟨d, hd, _, hmem⟩ := mem_ancestorPks.mp hm
    rw [upLevel_empty_of_no_parents hparents d hd] at hmem
    exact List.not_mem_nil m hmem
  have hdesc : descendantPks st n md = [] := by
    rw [List.eq_nil_iff_forall_not_mem]
    intro m hm
    obtain ⟨d, hd, _, hmem⟩ := mem_descendantPks.mp hm
    rw [downLevel_empty_of_no_children hchildren d hd] at hmem
    exact List.not_mem_nil m hmem
  have hself : querysetPks st [n] = [n] :=
    querysetPks_eq_self (List.nodup_singleton n) (by
      intro x hx
      rw [List.mem_singleton] at hx
      exact hx ▸ hn)
  refine ⟨?_, ?_, ?_, ?_⟩
  · intro hroot
    exact hnoChild hroot.1
  · intro hleaf
    exact hnoParent hleaf.1
  · rw [rootsFacade, hanc]
    have hq : querysetPks st ([] : List Nat) = [] := rfl
    simp [hq, hself]
  · rw [leavesFacade, hdesc]
    have hq : querysetPks st ([] : List Nat) = [] := rfl
    simp [hq, hself]

/-- Witness for C9: node 4 is an island of `stChainAndIsland`. -/
theorem C9_island_root_leaf_witness :
    ¬isRootPred stChainAndIsland 4 ∧ ¬isLeafPred stChainAndIsland 4 ∧
      rootsFacade stChainAndIsland 4 defaultMaxDepth = [4] ∧
      leavesFacade stChainAndIsland 4 defaultMaxDepth = [4] :=
  C9_island_root_leaf stChainAndIsland 4 defaultMaxDepth (by decide) (by decide)

/-! ### Claim C7 -/

/-- C7 counterexample: a weighted-path request whose start node equals
its end node short-circuits before any validation, so an invalid weight
field name raises nothing, contradicting the claim that every
weighted-path request validates the weight attribute and raises
`InvalidWeightField` on failure. -/
theorem C7_counterexample_self_path_skips_validation :
    weightedPathRawTraced stChain3 schemaWeighted 1 1 "bogus" true defaultMaxDepth
        = (Except.ok ([1], 0), []) ∧
      validateWeightField schemaWeighted "bogus" = Except.error () := by
  exact ⟨rfl, rfl⟩

/-- C7 (amended): for every weighted-path request with distinct start and
end nodes, the weight field is validated while the query object is
constructed, before any traversal SQL is built; validation failure raises
`InvalidWeightField` and the executed-query trace stays empty, so no
traversal query is ever executed with an invalid weight field.  (The
self-path request executes no traversal query either.) -/
theorem C7_amended_validation_before_query (st : DagState) (schema : EdgeSchema)
    (a b : Nat) (f : String) (dir : Bool) (md : Nat) (hne : a ≠ b)
    (hv : validateWeightField schema f = Except.error ()) :
    weightedPathRawTraced st schema a b f dir md
      = (Except.error WErr.invalidWeightField, []) := by
  simp [weightedPathRawTraced, if_neg hne, hv]

/-- Witness for the amended C7 at a concrete request. -/
theorem C7_amended_validation_before_query_witness :
    weightedPathRawTraced stChain3 schemaWeighted 1 2 "bogus" true defaultMaxDepth
      = (Except.error WErr.invalidWeightField, []) :=
  C7_amended_validation_before_query stChain3 schemaWeighted 1 2 "bogus" true
    defaultMaxDepth (by decide) rfl

/-! ### Claim C2 (counterexample half) -/

/-- C2 counterexample: with the single edge 1 → 2, the non-directional
path query from 2 to 1 succeeds through the upward probe and returns
[2, 1] — the starting leaf-side node first — although node 1 is the
root-side node (1 → 2 is an edge), so the result is not ordered from
root-side to leaf-side. -/
theorem C2_counterexample_upward_path_leaf_side_first :
    pathRawPks stEdge12 2 1 false defaultMaxDepth = Except.ok [2, 1] ∧
      isEdge stEdge12 1 2 ∧ ¬isEdge stEdge12 2 1 := by
  refine ⟨rfl, by decide, by decide⟩

/-! ### Claim C8 -/

/-- C8: `critical_path()` on a graph consisting of the single isolated
node 7 returns the one-node path [7] with total weight 0, and on the
empty graph returns the empty result with total weight 0 (in both the
unweighted and the weighted mode). -/
theorem C8_critical_path_trivial_graphs :
    criticalPathFacade stSingle7 false defaultMaxDepth = ([7], 0) ∧
      criticalPathFacade stSingle7 true defaultMaxDepth = ([7], 0) ∧
      criticalPathFacade stEmpty false defaultMaxDepth = ([], 0) ∧
      criticalPathFacade stEmpty true defaultMaxDepth = ([], 0) := by
  exact ⟨rfl, rfl, rfl, rfl⟩

end DagVerify
